import Mathlib

/-!
Shallow embedding of `src/extension.ts` (a VS Code extension providing
go-to-definition / find-references for "store" files) and proofs about it.

The extension's class `LitStoreReferenceTracker` keeps five mutable
structures (forward index, reverse index, per-file import map, text cache,
pending debounced re-analysis table).  We model them as the fields of
`TrackerState`; the host editor (open buffers, the disk, the workspace file
enumeration) is modelled by the read-only `Env`.  All JavaScript `Map`s /
`Set`s are modelled as association lists / lists with the corresponding
lookup / insert / delete semantics.  The regular-expression scans of the
source are modelled as explicit deterministic matchers over `List Char`;
each matcher follows the concrete regex of the source, using the fact that
the character classes involved (`\s`, `\w`, literal keywords, quotes) are
mutually disjoint, so the greedy JS backtracking engine behaves like
maximal munch on these patterns (for the name arguments we care about,
plain `\w+` identifiers).  Timers (`setTimeout` / `clearTimeout`) are
modelled by a fresh-id counter plus a list of cancelled ids.
-/

namespace AddStore

/-! ## Generic association-list maps (model of JS `Map`) and set lists -/

/-- Lookup of the first binding of `k`, like `Map.get` (and like
`Array.prototype.find` over open documents). -/
def lookupA {α : Type} (m : List (String × α)) (k : String) : Option α :=
  (m.find? (fun p => p.1 = k)).map (fun p => p.2)

/-- `Map.set`: replace any existing binding of `k` by `v` (put in front). -/
def setKey {α : Type} (m : List (String × α)) (k : String) (v : α) :
    List (String × α) :=
  (k, v) :: m.filter (fun p => decide (p.1 ≠ k))

/-- `Map.delete`. -/
def delKey {α : Type} (m : List (String × α)) (k : String) :
    List (String × α) :=
  m.filter (fun p => decide (p.1 ≠ k))

/-- `Set.add` on a list kept duplicate-free by construction. -/
def addElem (s : List String) (x : String) : List String :=
  if x ∈ s then s else s ++ [x]

/-! ## Characters, positions, locations -/

/-- JS regex `\w` (ASCII letters, digits, underscore). -/
def isWordChar (c : Char) : Bool :=
  c.isAlpha || c.isDigit || c = '_'

/-- JS regex `\s` (whitespace, including the Unicode space characters the
JS engine recognises). -/
def isSpaceChar (c : Char) : Bool :=
  c = ' ' || c = '\t' || c = '\n' || c = '\r' || c = '\x0b' || c = '\x0c' ||
  c = '\u00A0' || c = '\u1680' || ('\u2000' ≤ c && c ≤ '\u200A') ||
  c = '\u2028' || c = '\u2029' || c = '\u202F' || c = '\u205F' ||
  c = '\u3000' || c = '\uFEFF'

/-- Line terminators (what JS `.` refuses to match, and what the
line-splitting regex `/\r?\n|\r|\n/` of `getPositionFromOffset` breaks on). -/
def isNewlineChar (c : Char) : Bool :=
  c = '\n' || c = '\r'

/-- A plain identifier: the strings produced by `\w+`. -/
def isIdentChars (l : List Char) : Bool :=
  decide (l ≠ []) && l.all isWordChar

/-- `text.slice(0, offset).split(/\r?\n|\r|\n/)`: split a character list at
line terminators, `\r\n` counting as a single break. -/
def splitLines : List Char → List (List Char)
  | [] => [[]]
  | c :: rest =>
    if c = '\r' then
      match rest with
      | '\n' :: rest2 => [] :: splitLines rest2
      | [] => [[], []]
      | d :: rest2 => [] :: splitLines (d :: rest2)
    else if c = '\n' then [] :: splitLines rest
    else
      match splitLines rest with
      | [] => [[c]]
      | l :: ls => (c :: l) :: ls

/-- `vscode.Position` (0-based line / character). -/
structure Pos where
  line : Nat
  character : Nat
  deriving DecidableEq, Repr

/-- `getPositionFromOffset` of the source: count the lines of the prefix;
the character is the length of the last line (the source's
`lines[line] ? lines[line].length : 0` equals that length, an empty last
line being scored `0` either way). -/
def getPositionFromOffset (text : List Char) (offset : Nat) : Pos :=
  let lines := splitLines (text.take offset)
  { line := lines.length - 1
    character := ((lines.getLast?).getD []).length }

/-- `vscode.Location`: a file path together with a start / end position. -/
structure Loc where
  uri : String
  rangeStart : Pos
  rangeEnd : Pos
  deriving DecidableEq, Repr

/-- The deduplication key `` `${fsPath}:${line}:${character}` `` used by the
reference collectors. -/
def dedupKey (uri : String) (p : Pos) : String :=
  uri ++ ":" ++ toString p.line ++ ":" ++ toString p.character

/-! ## Primitive string searching -/

/-- Length of the maximal prefix of `s` whose characters satisfy `p`
(the maximal-munch step of `\s+`, `\s*`, `\w+`, `[^}]+`). -/
def takeWhileLen (p : Char → Bool) (s : List Char) : Nat :=
  (s.takeWhile p).length

/-- `String.prototype.indexOf`: the least index at which `nm` occurs in
`l`, if any. -/
def firstIdx (nm : List Char) : List Char → Option Nat
  | [] => if nm = [] then some 0 else none
  | c :: rest =>
    if nm.isPrefixOf (c :: rest) then some 0
    else (firstIdx nm rest).map (· + 1)

/-- `String.prototype.includes`. -/
def containsChars (l nm : List Char) : Bool :=
  (firstIdx nm l).isSome

/-- Does `suf` occur at the end of `l`? (`$`-anchored literal matching.) -/
def endsWithChars (l suf : List Char) : Bool :=
  suf.isSuffixOf l

def strStartsWith (s pre : String) : Bool :=
  pre.toList.isPrefixOf s.toList

def strEndsWith (s suf : String) : Bool :=
  suf.toList.isSuffixOf s.toList

/-- `String.prototype.split` with a one-character separator (used with
`,` for import name lists and `/` for paths). -/
def splitOnChar (sep : Char) : List Char → List (List Char)
  | [] => [[]]
  | c :: rest =>
    if c = sep then [] :: splitOnChar sep rest
    else
      match splitOnChar sep rest with
      | [] => [[c]]
      | l :: ls => (c :: l) :: ls

/-- `Array.prototype.join("/")`. -/
def joinWithSlash : List (List Char) → List Char
  | [] => []
  | [x] => x
  | x :: y :: rest => x ++ '/' :: joinWithSlash (y :: rest)

/-- JS `String.prototype.trim` (both ends, `\s`). -/
def trimChars (l : List Char) : List Char :=
  ((l.dropWhile isSpaceChar).reverse.dropWhile isSpaceChar).reverse

/-! ## `isStoreFile`: the regex `/\.store\.ts?$/`

We model the regex primitively: `matchStoreSuffixAt` decides whether the
pattern, whose tail is anchored by `$`, matches the suffix beginning at the
current position (the optional `s?` first tries to consume an `s`, then
tries the empty alternative; both must be followed by the end of input),
and `storeSuffixTest` is `RegExp.prototype.test`, trying every start
position. -/

def matchStoreSuffixAt (s : List Char) : Bool :=
  (".store.t".toList.isPrefixOf s) &&
    (decide (s.drop 8 = []) || decide (s.drop 8 = ['s']))

def storeSuffixTest : List Char → Bool
  | [] => matchStoreSuffixAt []
  | c :: rest => matchStoreSuffixAt (c :: rest) || storeSuffixTest rest

/-- `isStoreFile` of the source: `/\.store\.ts?$/.test(filePath)`. -/
def isStoreFile (filePath : String) : Bool :=
  storeSuffixTest filePath.toList

/-! ## The export-declaration matchers

`EXPORT_PATTERN = /export\s+(const|let|var)\s+(\w+)\s*=/g` (used by
`analyzeStoreFile`), and the per-name pattern
`` new RegExp(`export\\s+(const|let|var)\\s+(${storeName})\\b`, "g") ``
(used by `findStoreDefinitions`).  The classes `\s`, `\w` and the keyword
letters are disjoint, so the JS engine's greedy matching is ordinary
maximal munch on these patterns (for the second one, provided the
interpolated name is a `\w+` identifier, which is the only case the
tracker produces). -/

/-- Try to match the keyword alternation `(const|let|var)` at the head of
`s`, returning the keyword consumed. -/
def matchKeywordAt (s : List Char) : Option (List Char) :=
  if "const".toList.isPrefixOf s then some "const".toList
  else if "let".toList.isPrefixOf s then some "let".toList
  else if "var".toList.isPrefixOf s then some "var".toList
  else none

/-- Match `EXPORT_PATTERN` at the head of `s`; on success return the
length of the whole match (up to and including the `=`) and the captured
identifier. -/
def matchExportAt (s : List Char) : Option (Nat × List Char) :=
  if "export".toList.isPrefixOf s then
    let s1 := s.drop 6
    let w1 := takeWhileLen isSpaceChar s1
    if w1 = 0 then none else
    match matchKeywordAt (s1.drop w1) with
    | none => none
    | some kw =>
      let s3 := (s1.drop w1).drop kw.length
      let w2 := takeWhileLen isSpaceChar s3
      if w2 = 0 then none else
      let s4 := s3.drop w2
      let nl := takeWhileLen isWordChar s4
      if nl = 0 then none else
      let s5 := s4.drop nl
      let w3 := takeWhileLen isSpaceChar s5
      if (s5.drop w3).head? = some '=' then
        some (6 + w1 + kw.length + w2 + nl + w3 + 1, s4.take nl)
      else none
  else none

/-- The `exec` loop over `EXPORT_PATTERN`: scan left to right, resuming
after the end of each match (`skip` counts the positions still inside the
last match, where no new attempt is made), and collect the captured
identifiers. -/
def scanExportsAux : List Char → Nat → List (List Char)
  | [], _skip => []
  | c :: rest, skip =>
    if skip > 0 then scanExportsAux rest (skip - 1)
    else
      match matchExportAt (c :: rest) with
      | some (len, nm) => nm :: scanExportsAux rest (len - 1)
      | none => scanExportsAux rest 0

def scanExports (s : List Char) : List (List Char) :=
  scanExportsAux s 0

/-- Is there a `\b` word boundary between a position whose previous
character is `pre` (`none` at the start of input) and whose next character
is `nxt` (`none` at the end of input)? -/
def boundaryBetween (pre nxt : Option Char) : Bool :=
  (match pre with | none => false | some c => isWordChar c) ≠
  (match nxt with | none => false | some c => isWordChar c)

/-- Match ``export\s+(const|let|var)\s+(NAME)\b`` at the head of `s`; on
success return the length of the whole match and the offset of `NAME`
inside the match. -/
def defMatchAt (s nm : List Char) : Option (Nat × Nat) :=
  if "export".toList.isPrefixOf s then
    let s1 := s.drop 6
    let w1 := takeWhileLen isSpaceChar s1
    if w1 = 0 then none else
    match matchKeywordAt (s1.drop w1) with
    | none => none
    | some kw =>
      let s3 := (s1.drop w1).drop kw.length
      let w2 := takeWhileLen isSpaceChar s3
      if w2 = 0 then none else
      let s4 := s3.drop w2
      if nm.isPrefixOf s4 then
        if boundaryBetween (nm.getLast?.orElse (fun _ => some ' '))
            ((s4.drop nm.length).head?) then
          some (6 + w1 + kw.length + w2 + nm.length,
                6 + w1 + kw.length + w2)
        else none
      else none
  else none

/-- One recorded match of the definition scan: absolute start offset of the
match, the matched text (`match[0]`), and the offset of the identifier
inside the match. -/
structure DefMatch where
  pos : Nat
  mstr : List Char
  identRel : Nat
  deriving Repr, DecidableEq

/-- The `exec` loop of `findStoreDefinitions`: scan left to right (`pos`
is the absolute offset of the head of the suffix), resuming after the end
of each match (`skip` positions still inside the last match are not new
attempt points). -/
def scanDefsAux (nm : List Char) : List Char → Nat → Nat → List DefMatch
  | [], _pos, _skip => []
  | c :: rest, pos, skip =>
    if skip > 0 then scanDefsAux nm rest (pos + 1) (skip - 1)
    else
      match defMatchAt (c :: rest) nm with
      | some (len, idr) =>
        { pos := pos, mstr := (c :: rest).take len, identRel := idr } ::
          scanDefsAux nm rest (pos + 1) (len - 1)
      | none => scanDefsAux nm rest (pos + 1) 0

def scanDefs (nm text : List Char) : List DefMatch :=
  scanDefsAux nm text 0 0

/-- The offset spans produced by `findStoreDefinitions`:
`startOff = match.index + match[0].indexOf(storeName)` and
`endOff = startOff + storeName.length`.  (`storeName` always occurs in
`match[0]` because the pattern matched it literally, so the `indexOf` is
never `-1`; the second branch is unreachable.) -/
def storeDefinitionSpans (text nm : List Char) : List (Nat × Nat) :=
  (scanDefs nm text).map (fun m =>
    match firstIdx nm m.mstr with
    | some d => (m.pos + d, m.pos + d + nm.length)
    | none => (m.pos, m.pos + nm.length))

/-- No position strictly inside a successful `defMatchAt` match is itself a
successful match position.  Under this side condition the `g`-flag `exec`
loop (which resumes after the end of each match) visits every matching
position of the text, so the scan is exhaustive. -/
def defScanNoOverlap (text nm : List Char) : Bool :=
  (List.range text.length).all (fun i =>
    match defMatchAt (text.drop i) nm with
    | none => true
    | some pr =>
      (List.range' (i + 1) (pr.1 - 1)).all (fun j =>
        (defMatchAt (text.drop j) nm).isNone))

/-! ## The `this.NAME` matcher

`` new RegExp(`\\bthis\\.${storeName}\\b`, "g") `` of
`findThisStoreReferences`. -/

/-- Match ``\bthis\.NAME\b`` at the head of `s`, where `pre` is the
character just before `s` (for the leading `\b`).  Returns the length of
the match. -/
def thisMatchAt (pre : Option Char) (s nm : List Char) : Option Nat :=
  if boundaryBetween pre s.head? then
    if "this.".toList.isPrefixOf s then
      if nm.isPrefixOf (s.drop 5) then
        if boundaryBetween
            ((nm.getLast?).orElse (fun _ => some '.'))
            ((s.drop (5 + nm.length)).head?) then
          some (5 + nm.length)
        else none
      else none
    else none
  else none

/-- The `exec` loop of `findThisStoreReferences`: absolute start offsets
of all (non-overlapping, left-to-right) matches.  `pre` is the character
before the current position (for the leading `\b`). -/
def scanThisAux (nm : List Char) :
    Option Char → List Char → Nat → Nat → List Nat
  | _pre, [], _pos, _skip => []
  | pre, c :: rest, pos, skip =>
    if skip > 0 then scanThisAux nm (some c) rest (pos + 1) (skip - 1)
    else
      match thisMatchAt pre (c :: rest) nm with
      | some len => pos :: scanThisAux nm (some c) rest (pos + 1) (len - 1)
      | none => scanThisAux nm (some c) rest (pos + 1) 0

def scanThis (nm s : List Char) : List Nat :=
  scanThisAux nm none s 0 0

/-! ## The import-statement matcher

`IMPORT_PATTERN = /import\s+{([^}]+)}\s+from\s+['"](.+?)['"]/g`, shared by
`findImportReferences` and `analyzeComponentImports`.  (Both `exec` loops
run to exhaustion, so the shared `lastIndex` is back at `0` after every
call and each call behaves like a fresh scan.) -/

def isQuoteChar (c : Char) : Bool :=
  c = '\'' || c = '\"'

/-- The lazy tail `(.+?)['"]`: the least `j ≥ 1` such that `s` has a quote
character at index `j` and only non-newline characters before it.  Returns
`j` (the captured specifier is then `s.take j`). -/
def findCloseQuote : List Char → Option Nat
  | [] => none
  | c :: rest =>
    if isNewlineChar c then none
    else
      match rest with
      | [] => none
      | d :: _ =>
        if isQuoteChar d then some 1
        else (findCloseQuote rest).map (· + 1)

/-- One recorded match of the import scan: absolute offset, matched text
(`match[0]`), the brace block (`match[1]`) and the specifier
(`match[2]`). -/
structure ImportMatch where
  pos : Nat
  mstr : List Char
  block : List Char
  spec : List Char
  deriving Repr, DecidableEq

/-- Match `IMPORT_PATTERN` at the head of `s`; on success return the match
length, the brace block and the specifier. -/
def importMatchAt (s : List Char) : Option (Nat × List Char × List Char) :=
  if "import".toList.isPrefixOf s then
    let s1 := s.drop 6
    let w1 := takeWhileLen isSpaceChar s1
    if w1 = 0 then none else
    let s2 := s1.drop w1
    if s2.head? = some '{' then
      let s3 := s2.drop 1
      let bl := takeWhileLen (fun c => decide (c ≠ '}')) s3
      if bl = 0 then none else
      let s4 := s3.drop bl
      if s4.head? = some '}' then
        let s5 := s4.drop 1
        let w2 := takeWhileLen isSpaceChar s5
        if w2 = 0 then none else
        let s6 := s5.drop w2
        if "from".toList.isPrefixOf s6 then
          let s7 := s6.drop 4
          let w3 := takeWhileLen isSpaceChar s7
          if w3 = 0 then none else
          let s8 := s7.drop w3
          match s8.head? with
          | none => none
          | some q =>
            if isQuoteChar q then
              match findCloseQuote (s8.drop 1) with
              | none => none
              | some j =>
                some (6 + w1 + 1 + bl + 1 + w2 + 4 + w3 + 1 + j + 1,
                      s3.take bl, (s8.drop 1).take j)
            else none
        else none
      else none
    else none
  else none

/-- The `exec` loop over `IMPORT_PATTERN`. -/
def scanImportsAux : List Char → Nat → Nat → List ImportMatch
  | [], _pos, _skip => []
  | c :: rest, pos, skip =>
    if skip > 0 then scanImportsAux rest (pos + 1) (skip - 1)
    else
      match importMatchAt (c :: rest) with
      | some (len, bl, sp) =>
        { pos := pos, mstr := (c :: rest).take len, block := bl, spec := sp } ::
          scanImportsAux rest (pos + 1) (len - 1)
      | none => scanImportsAux rest (pos + 1) 0

def scanImports (s : List Char) : List ImportMatch :=
  scanImportsAux s 0 0

/-! ## `hasImportedStore`

`` new RegExp(`import\\s+{[^}]*\\b${storeName}\\b[^}]*}\\s+from\\s+(['"]).*${baseName}\\1`) ``
tested with `.test(content)` — pure existence of a match.  `hisFindName`
walks the brace block looking for `\bNAME\b` (stopping at the first `}`,
which `[^}]*` cannot cross), `hisTail` checks the deterministic
`[^}]*}\s+from\s+(['"])` tail, and `hisDotStar` searches for the
`.*BASE\1` part (`.` not matching line terminators, `\1` the same quote). -/

/-- POSIX `path.basename`. -/
def basenameStr (p : String) : String :=
  String.mk (((splitOnChar '/' p.toList).getLast?).getD p.toList)

/-- `.replace(/\.(ts)$/, "")`. -/
def stripTsSuffix (b : String) : String :=
  if strEndsWith b ".ts" then String.mk (b.toList.take (b.toList.length - 3))
  else b

def hisDotStar (base : List Char) (q : Char) : List Char → Bool
  | [] => false
  | c :: rest =>
    (base.isPrefixOf (c :: rest) &&
      decide (((c :: rest).drop base.length).head? = some q)) ||
    (!isNewlineChar c && hisDotStar base q rest)

def hisTail (base : List Char) (s : List Char) : Bool :=
  let k := takeWhileLen (fun c => decide (c ≠ '}')) s
  let s1 := s.drop k
  if s1.head? = some '}' then
    let s2 := s1.drop 1
    let w2 := takeWhileLen isSpaceChar s2
    if w2 = 0 then false else
    let s3 := s2.drop w2
    if "from".toList.isPrefixOf s3 then
      let s4 := s3.drop 4
      let w3 := takeWhileLen isSpaceChar s4
      if w3 = 0 then false else
      let s5 := s4.drop w3
      match s5.head? with
      | some q => isQuoteChar q && hisDotStar base q (s5.drop 1)
      | none => false
    else false
  else false

def hisFindName (nm base : List Char) (pre : Option Char) : List Char → Bool
  | [] => false
  | c :: rest =>
    (boundaryBetween pre (some c) && nm.isPrefixOf (c :: rest) &&
      boundaryBetween ((nm.getLast?).orElse (fun _ => pre))
        (((c :: rest).drop nm.length).head?) &&
      hisTail base ((c :: rest).drop nm.length)) ||
    (decide (c ≠ '}') && hisFindName nm base (some c) rest)

def hisMatchAt (nm base s : List Char) : Bool :=
  if "import".toList.isPrefixOf s then
    let s1 := s.drop 6
    let w1 := takeWhileLen isSpaceChar s1
    if w1 = 0 then false else
    let s2 := s1.drop w1
    if s2.head? = some '{' then hisFindName nm base (some '{') (s2.drop 1)
    else false
  else false

def hisTest (nm base : List Char) : List Char → Bool
  | [] => hisMatchAt nm base []
  | c :: rest => hisMatchAt nm base (c :: rest) || hisTest nm base rest

/-- `hasImportedStore` of the source. -/
def hasImportedStore (content storeFilePath storeName : String) : Bool :=
  let baseName := stripTsSuffix (basenameStr storeFilePath)
  hisTest storeName.toList baseName.toList content.toList

/-! ## Path resolution (POSIX `path.dirname` / `path.resolve`) -/

def normSegs : List (List Char) → List (List Char) → List (List Char)
  | [], acc => acc.reverse
  | sg :: rest, acc =>
    if sg = [] || sg = ['.'] then normSegs rest acc
    else if sg = "..".toList then normSegs rest acc.tail
    else normSegs rest (sg :: acc)

/-- `path.resolve(baseDir, relPath)` for an absolute `baseDir`: join the
segments of both, dropping empty and `.` segments and letting `..` pop. -/
def pathResolve (baseDir relPath : String) : String :=
  String.mk ('/' :: joinWithSlash
    (normSegs (splitOnChar '/' baseDir.toList ++ splitOnChar '/' relPath.toList) []))

/-- `path.dirname` for the simple absolute paths the tracker passes it. -/
def dirname (p : String) : String :=
  let parts := splitOnChar '/' p.toList
  if parts.length ≤ 1 then "."
  else
    let d := joinWithSlash parts.dropLast
    if d = [] then "/" else String.mk d

/-! ## Host environment and tracker state -/

/-- The host editor: currently open text documents (path, live text), the
file system (path, content; `readFile` throws for paths not present, and
`existsSync` answers presence), and the enumeration `findFiles` returns for
the workspace glob. -/
structure Env where
  openDocs : List (String × String)
  disk : List (String × String)
  workspaceFiles : List String

/-- The five mutable structures of `LitStoreReferenceTracker`, plus the
model of the timer table: `pendingAnalysis` maps a path to the id of its
scheduled timeout, `cancelledTimeouts` records every id passed to
`clearTimeout`, and `nextTimeoutId` generates fresh ids. -/
structure TrackerState where
  storeFileToNamesMap : List (String × List String)
  storeNameToFilesMap : List (String × List String)
  componentImportsMap : List (String × List (String × String))
  fileCache : List (String × String)
  analyzedFiles : List String
  pendingAnalysis : List (String × Nat)
  cancelledTimeouts : List Nat
  nextTimeoutId : Nat
  deriving Repr, DecidableEq

/-- The freshly constructed tracker: every structure empty. -/
def initState : TrackerState :=
  { storeFileToNamesMap := [], storeNameToFilesMap := []
    componentImportsMap := [], fileCache := [], analyzedFiles := []
    pendingAnalysis := [], cancelledTimeouts := [], nextTimeoutId := 0 }

def existsSync (env : Env) (p : String) : Bool :=
  (lookupA env.disk p).isSome

/-- `resolveImportPath` of the source. -/
def resolveImportPath (env : Env) (importPath baseDir : String) : String :=
  if strStartsWith importPath "./" || strStartsWith importPath "../" then
    let fullPath := pathResolve baseDir importPath
    if !strEndsWith fullPath ".ts" && existsSync env (fullPath ++ ".ts") then
      fullPath ++ ".ts"
    else fullPath
  else importPath

/-! ## Tracker operations -/

/-- `scheduleAnalysisForStore`: `clearTimeout` any pending task for the
path, then install a fresh one. -/
def scheduleAnalysisForStore (st : TrackerState) (filePath : String) :
    TrackerState :=
  let stc :=
    match lookupA st.pendingAnalysis filePath with
    | some tid => { st with cancelledTimeouts := tid :: st.cancelledTimeouts }
    | none => st
  { stc with
    pendingAnalysis := setKey stc.pendingAnalysis filePath stc.nextTimeoutId
    nextTimeoutId := stc.nextTimeoutId + 1 }

/-- `getDocumentText`: open buffer first (updating the cache, scheduling a
store reindex and dropping the `analyzedFiles` mark when the content
changed), then the cache, then a disk read (caching the result); a failed
read is caught and returned as absence. -/
def getDocumentText (env : Env) (st : TrackerState) (filePath : String) :
    Option String × TrackerState :=
  match lookupA env.openDocs filePath with
  | some text =>
    let cached := lookupA st.fileCache filePath
    if cached ≠ some text then
      let st1 := { st with fileCache := setKey st.fileCache filePath text }
      let st2 := if isStoreFile filePath then scheduleAnalysisForStore st1 filePath
                 else st1
      (some text,
       { st2 with analyzedFiles :=
           st2.analyzedFiles.filter (fun g => decide (g ≠ filePath)) })
    else (some text, st)
  | none =>
    match lookupA st.fileCache filePath with
    | some c => (some c, st)
    | none =>
      match lookupA env.disk filePath with
      | some t => (some t, { st with fileCache := setKey st.fileCache filePath t })
      | none => (none, st)

/-- `invalidateCache`. -/
def invalidateCache (st : TrackerState) (filePath : String) : TrackerState :=
  let st1 := { st with
    fileCache := delKey st.fileCache filePath
    analyzedFiles := st.analyzedFiles.filter (fun g => decide (g ≠ filePath)) }
  if isStoreFile filePath then scheduleAnalysisForStore st1 filePath else st1

/-- `n.match(/^(\w+)(?:\s+as\s+(\w+))?/)` of `analyzeComponentImports`:
the leading identifier and, when the optional renaming clause matches, the
alias. -/
def parseImportName (l : List Char) : Option (String × Option String) :=
  let wl := takeWhileLen isWordChar l
  if wl = 0 then none else
  let orig := l.take wl
  let r1 := l.drop wl
  let sp1 := takeWhileLen isSpaceChar r1
  let aliasPart :=
    if sp1 = 0 then none else
    let r2 := r1.drop sp1
    if "as".toList.isPrefixOf r2 then
      let r3 := r2.drop 2
      let sp2 := takeWhileLen isSpaceChar r3
      if sp2 = 0 then none else
      let r4 := r3.drop sp2
      let al := takeWhileLen isWordChar r4
      if al = 0 then none else some (String.mk (r4.take al))
    else none
  some (String.mk orig, aliasPart)

/-- The body of `analyzeComponentImports`'s `while` loop for one
`IMPORT_PATTERN` match: split the name block on commas, trim, resolve the
specifier, and — when the resolved path is a store file — bind each
imported name (its alias if renamed) to the resolved path. -/
def importBindingsStep (env : Env) (filePath : String)
    (m : List (String × String)) (im : ImportMatch) :
    List (String × String) :=
  let rawNames := (splitOnChar ',' im.block).map trimChars
  let resolved := resolveImportPath env (String.mk im.spec) (dirname filePath)
  if isStoreFile resolved then
    rawNames.foldl (fun m2 n =>
      match parseImportName n with
      | none => m2
      | some (orig, al) => setKey m2 (al.getD orig) resolved) m
  else m

/-- The import map `analyzeComponentImports` computes from a text. -/
def componentImportsOf (env : Env) (text filePath : String) :
    List (String × String) :=
  (scanImports text.toList).foldl (importBindingsStep env filePath) []

/-- `analyzeComponentImports`. -/
def analyzeComponentImports (env : Env) (st : TrackerState)
    (filePath : String) : TrackerState :=
  if filePath ∈ st.analyzedFiles then st else
  match getDocumentText env st filePath with
  | (none, st1) => st1
  | (some text, st1) =>
    if text = "" then st1 else
    { st1 with
      componentImportsMap :=
        setKey st1.componentImportsMap filePath (componentImportsOf env text filePath)
      analyzedFiles := addElem st1.analyzedFiles filePath }

/-- `ensureImportsAnalyzed`: analyze only if the map has no entry yet. -/
def ensureImportsAnalyzed (env : Env) (st : TrackerState)
    (filePath : String) : TrackerState :=
  if (lookupA st.componentImportsMap filePath).isSome then st
  else analyzeComponentImports env st filePath

def addFileToName (rev : List (String × List String)) (nm f : String) :
    List (String × List String) :=
  match lookupA rev nm with
  | none => setKey rev nm [f]
  | some fs => setKey rev nm (addElem fs f)

def removeFileFromName (rev : List (String × List String)) (nm f : String) :
    List (String × List String) :=
  match lookupA rev nm with
  | none => rev
  | some fs =>
    let fs2 := fs.filter (fun g => decide (g ≠ f))
    if fs2 = [] then delKey rev nm else setKey rev nm fs2

/-- `analyzeStoreFile`: rescan the text with `EXPORT_PATTERN`, adding each
found name to the reverse index as it is scanned; then remove this file
from the reverse entries of names that vanished (deleting an entry once its
file set is empty); finally replace the forward entry. -/
def analyzeStoreFile (env : Env) (st : TrackerState) (filePath : String) :
    TrackerState :=
  match getDocumentText env st filePath with
  | (none, st1) => st1
  | (some text, st1) =>
    if text = "" then st1 else
    let oldSet := (lookupA st1.storeFileToNamesMap filePath).getD []
    let names := (scanExports text.toList).map String.mk
    let newSet := names.foldl addElem []
    let rev1 := names.foldl (fun rev n => addFileToName rev n filePath)
        st1.storeNameToFilesMap
    let rev2 := oldSet.foldl (fun rev o =>
        if o ∈ newSet then rev else removeFileFromName rev o filePath) rev1
    { st1 with
      storeFileToNamesMap := setKey st1.storeFileToNamesMap filePath newSet
      storeNameToFilesMap := rev2 }

/-! ## The reference / definition providers -/

/-- `findStoreDefinitions`: map the offset spans to `Location`s. -/
def findStoreDefinitions (env : Env) (st : TrackerState)
    (storeFilePath storeName : String) : List Loc × TrackerState :=
  match getDocumentText env st storeFilePath with
  | (none, st1) => ([], st1)
  | (some text, st1) =>
    if text = "" then ([], st1) else
    ((storeDefinitionSpans text.toList storeName.toList).map (fun sp =>
      { uri := storeFilePath
        rangeStart := getPositionFromOffset text.toList sp.1
        rangeEnd := getPositionFromOffset text.toList sp.2 }), st1)

/-- The `visited`-guarded push shared by `findThisStoreReferences` and
`findImportReferences`: compute the key, skip if already seen, otherwise
record it and append the location. -/
def pushLoc (uri : String) (pp : Pos × Pos) (acc : List Loc × List String) :
    List Loc × List String :=
  let key := dedupKey uri pp.1
  if key ∈ acc.2 then acc
  else (acc.1 ++ [{ uri := uri, rangeStart := pp.1, rangeEnd := pp.2 }],
        key :: acc.2)

/-- Fold a per-match span computation through the guarded push. -/
def emitFold {α : Type} (uri : String) (f : α → Option (Pos × Pos))
    (items : List α) (visited : List String) : List Loc × List String :=
  items.foldl (fun acc x =>
    match f x with
    | none => acc
    | some pp => pushLoc uri pp acc) ([], visited)

/-- Per-match span of `findThisStoreReferences`:
`startOff = match.index + 5`. -/
def thisRefSpan (content : List Char) (nmLen pos : Nat) : Option (Pos × Pos) :=
  some (getPositionFromOffset content (pos + 5),
        getPositionFromOffset content (pos + 5 + nmLen))

def findThisStoreReferences (fileUri content storeName : String)
    (visited : List String) : List Loc × List String :=
  emitFold fileUri (fun pos => thisRefSpan content.toList storeName.toList.length pos)
    (scanThis storeName.toList content.toList) visited

/-- Per-match span of `findImportReferences`: only matches whose name list
`includes` the store name contribute;
`importPos = match.index + match[0].indexOf(storeName)` guarded by
`importPos >= 0` (when the `indexOf` is `-1` — impossible here since the
block is part of `match[0]` — the source would use `match.index - 1`). -/
def importRefSpan (content : List Char) (nm : List Char) (im : ImportMatch) :
    Option (Pos × Pos) :=
  if containsChars im.block nm then
    match firstIdx nm im.mstr with
    | some d =>
      some (getPositionFromOffset content (im.pos + d),
            getPositionFromOffset content (im.pos + d + nm.length))
    | none =>
      if im.pos ≥ 1 then
        some (getPositionFromOffset content (im.pos - 1),
              getPositionFromOffset content (im.pos - 1 + nm.length))
      else none
  else none

def findImportReferences (fileUri content storeName : String)
    (visited : List String) : List Loc × List String :=
  emitFold fileUri (importRefSpan content.toList storeName.toList)
    (scanImports content.toList) visited

/-- The per-file loop of `findStoreVariableReferences`.  The cancellation
token is modelled by `budget`: `some k` means the token becomes signalled
after the `k`-th per-file check (`none`: never).  Each iteration first
checks the token (`break` returns the list accumulated so far — cancellation
is not an error, the partial result is returned normally), skips the store
file itself, fetches the file's text (skipping absent or empty content),
and for files passing `hasImportedStore` appends the import-clause and
`this.` occurrences, both deduplicated through the shared `visited` set. -/
def refsLoop (env : Env) (storeFilePath storeName : String) :
    List String → TrackerState → List String → List Loc → Option Nat →
    List Loc × TrackerState
  | [], st, _vis, acc, _b => (acc, st)
  | f :: rest, st, vis, acc, budget =>
    if budget = some 0 then (acc, st)
    else
      let budget2 := budget.map (fun k => k - 1)
      if f = storeFilePath then
        refsLoop env storeFilePath storeName rest st vis acc budget2
      else
        match getDocumentText env st f with
        | (none, st1) =>
          refsLoop env storeFilePath storeName rest st1 vis acc budget2
        | (some content, st1) =>
          if content = "" then
            refsLoop env storeFilePath storeName rest st1 vis acc budget2
          else if hasImportedStore content storeFilePath storeName then
            let r1 := findImportReferences f content storeName vis
            let r2 := findThisStoreReferences f content storeName r1.2
            refsLoop env storeFilePath storeName rest st1 r2.2
              (acc ++ r1.1 ++ r2.1) budget2
          else refsLoop env storeFilePath storeName rest st1 vis acc budget2

/-- `findStoreVariableReferences`: the definition spans from the store file
first, then the per-file workspace loop. -/
def findStoreVariableReferences (env : Env) (st : TrackerState)
    (storeFilePath storeName : String) (budget : Option Nat) :
    List Loc × TrackerState :=
  let d := findStoreDefinitions env st storeFilePath storeName
  refsLoop env storeFilePath storeName env.workspaceFiles d.2 [] d.1 budget

/-- `findImportedStoreReferences` (the component-local query). -/
def findImportedStoreReferences (env : Env) (st : TrackerState)
    (componentFilePath storeName : String) : List Loc × TrackerState :=
  let st1 := ensureImportsAnalyzed env st componentFilePath
  match lookupA st1.componentImportsMap componentFilePath with
  | none => ([], st1)
  | some compMap =>
    match lookupA compMap storeName with
    | none => ([], st1)
    | some storeFilePath =>
      let d := findStoreDefinitions env st1 storeFilePath storeName
      match getDocumentText env d.2 componentFilePath with
      | (none, st2) => (d.1, st2)
      | (some content, st2) =>
        if content = "" then (d.1, st2)
        else
          let r := findThisStoreReferences componentFilePath content storeName []
          (d.1 ++ r.1, st2)

/-! ## Event sequences

Every public entry point that mutates the tracker, as a single step type;
`fireTimeout` is the debounce callback (`analyzeStoreFile` then
`pendingAnalysis.delete`). -/

inductive Op where
  | getText (filePath : String)
  | invalidate (filePath : String)
  | analyzeStore (filePath : String)
  | ensureImports (filePath : String)
  | findRefs (storeFilePath storeName : String) (budget : Option Nat)
  | findCompRefs (componentFilePath storeName : String)
  | fireTimeout (filePath : String)

def applyOp (st : TrackerState) : Env × Op → TrackerState
  | (env, Op.getText f) => (getDocumentText env st f).2
  | (_env, Op.invalidate f) => invalidateCache st f
  | (env, Op.analyzeStore f) => analyzeStoreFile env st f
  | (env, Op.ensureImports f) => ensureImportsAnalyzed env st f
  | (env, Op.findRefs sf nm b) => (findStoreVariableReferences env st sf nm b).2
  | (env, Op.findCompRefs cf nm) => (findImportedStoreReferences env st cf nm).2
  | (env, Op.fireTimeout f) =>
    let st1 := analyzeStoreFile env st f
    { st1 with pendingAnalysis := delKey st1.pendingAnalysis f }

/-- A whole session: a sequence of host events / queries applied to the
freshly constructed tracker. -/
def runOps (steps : List (Env × Op)) : TrackerState :=
  steps.foldl applyOp initState

/-! ## Invariant statements -/

/-- The debounce-table invariant: every pending timeout id is below the
fresh-id counter (so a newly installed id can never collide with it) and
the table has at most one entry per file path. -/
def PendInv (st : TrackerState) : Prop :=
  (∀ p t, lookupA st.pendingAnalysis p = some t → t < st.nextTimeoutId) ∧
  (st.pendingAnalysis.map Prod.fst).Nodup

/-- Forward/reverse index consistency (the C3 invariant): a name lies in a
file's forward entry iff the file lies in the name's reverse entry, and no
reverse entry has an empty file set. -/
def IndexInv (st : TrackerState) : Prop :=
  (∀ f n, n ∈ (lookupA st.storeFileToNamesMap f).getD [] ↔
    f ∈ (lookupA st.storeNameToFilesMap n).getD []) ∧
  (∀ n fs, lookupA st.storeNameToFilesMap n = some fs → fs ≠ [])

/-! ## Concrete hosts used by individual results -/

def envC1 : Env :=
  { openDocs := []
    disk := [("/p/c.ts", "import { x } from \"./a.store\"\n"),
             ("/p/a.store.ts", "export const x = 1\n")]
    workspaceFiles := [] }

/-- A tracker that memoized an (empty) import map for `/p/c.ts` while the
file had no imports; the file now has one (see `envC1`). -/
def stC1 : TrackerState :=
  { initState with
    componentImportsMap := [("/p/c.ts", [])]
    analyzedFiles := ["/p/c.ts"]
    fileCache := [("/p/c.ts", "")] }

def envC5 : Env :=
  { openDocs := []
    disk := [("/p/c.ts", "import { x } from \"lib/a.store.ts\"\n")]
    workspaceFiles := [] }

def envC5w : Env :=
  { openDocs := []
    disk := [("/p/c.ts", "import { y } from \"./a.store\"\n"),
             ("/p/a.store.ts", "export const y = 1\n")]
    workspaceFiles := [] }

/-- A store file whose exported name occurs earlier inside the matched
declaration text (the name `ar` occurs inside the keyword `var`). -/
def envC2b : Env :=
  { openDocs := []
    disk := [("/s/ar.store.ts", "export var ar = 1")]
    workspaceFiles := [] }

/-- A store file with one well-behaved export declaration. -/
def envC2 : Env :=
  { openDocs := []
    disk := [("/s/c.store.ts", "export const count = 1")]
    workspaceFiles := [] }

/-! # Lemmas

## Association-list maps -/

theorem lookupA_cons {α : Type} (a : String × α) (m : List (String × α))
    (k : String) :
    lookupA (a :: m) k = if a.1 = k then some a.2 else lookupA m k := by
  by_cases h : a.1 = k <;> simp [lookupA, List.find?, h]

theorem lookupA_setKey_self {α : Type} (m : List (String × α)) (k : String)
    (v : α) : lookupA (setKey m k v) k = some v := by
  simp [setKey, lookupA_cons]

theorem lookupA_filterKey {α : Type} (m : List (String × α)) (k k' : String)
    (h : k' ≠ k) :
    lookupA (m.filter (fun p => decide (p.1 ≠ k))) k' = lookupA m k' := by
  induction m with
  | nil => rfl
  | cons a m ih =>
    by_cases ha : a.1 = k
    · rw [List.filter_cons_of_neg (by simp [ha]), ih, lookupA_cons,
        if_neg (fun hh : a.1 = k' => h (hh ▸ ha))]
    · rw [List.filter_cons_of_pos (by simp [ha]), lookupA_cons, lookupA_cons, ih]

theorem lookupA_setKey_ne {α : Type} (m : List (String × α)) (k k' : String)
    (v : α) (h : k' ≠ k) : lookupA (setKey m k v) k' = lookupA m k' := by
  rw [setKey, lookupA_cons, if_neg (fun hh : k = k' => h hh.symm)]
  exact lookupA_filterKey m k k' h

theorem lookupA_delKey_self {α : Type} (m : List (String × α)) (k : String) :
    lookupA (delKey m k) k = none := by
  induction m with
  | nil => rfl
  | cons a m ih =>
    by_cases ha : a.1 = k
    · rw [delKey, List.filter_cons_of_neg (by simp [ha])]; exact ih
    · rw [delKey, List.filter_cons_of_pos (by simp [ha]), lookupA_cons,
        if_neg ha]
      exact ih

theorem lookupA_delKey_ne {α : Type} (m : List (String × α)) (k k' : String)
    (h : k' ≠ k) : lookupA (delKey m k) k' = lookupA m k' :=
  lookupA_filterKey m k k' h

theorem mem_addElem (s : List String) (x y : String) :
    y ∈ addElem s x ↔ y ∈ s ∨ y = x := by
  by_cases h : x ∈ s
  · simp [addElem, h]
    intro hy; subst hy; exact h
  · simp [addElem, h]

theorem keys_nodup_setKey {α : Type} (m : List (String × α)) (k : String)
    (v : α) (h : (m.map Prod.fst).Nodup) :
    ((setKey m k v).map Prod.fst).Nodup := by
  unfold setKey
  rw [List.map_cons]
  refine List.nodup_cons.mpr ⟨?_, ?_⟩
  · intro hb
    simp only [List.mem_map, List.mem_filter] at hb
    obtain ⟨q, ⟨hqm, hqk⟩, hb⟩ := hb
    simp only [decide_eq_true_eq] at hqk
    exact hqk hb
  · exact List.Nodup.sublist ((List.filter_sublist m).map Prod.fst) h

theorem keys_nodup_delKey {α : Type} (m : List (String × α)) (k : String)
    (h : (m.map Prod.fst).Nodup) :
    ((delKey m k).map Prod.fst).Nodup :=
  List.Nodup.sublist ((List.filter_sublist m).map Prod.fst) h

/-! ## The store-suffix classification (C6) -/

theorem cons_eq_append_suffix (c : Char) (l suf : List Char) :
    (∃ a, c :: l = a ++ suf) ↔ (c :: l = suf ∨ ∃ a, l = a ++ suf) := by
  constructor
  · rintro ⟨a, ha⟩
    cases a with
    | nil => left; simpa using ha
    | cons x a2 =>
      right
      refine ⟨a2, ?_⟩
      simp only [List.cons_append, List.cons.injEq] at ha
      exact ha.2
  · rintro (h | ⟨a, ha⟩)
    · exact ⟨[], by simpa using h⟩
    · exact ⟨c :: a, by simp [ha]⟩

theorem matchStoreSuffixAt_iff (s : List Char) :
    matchStoreSuffixAt s = true ↔
      s = ".store.t".toList ∨ s = ".store.ts".toList := by
  constructor
  · intro h
    unfold matchStoreSuffixAt at h
    simp only [Bool.and_eq_true, Bool.or_eq_true, decide_eq_true_eq] at h
    obtain ⟨hp, hd⟩ := h
    have hpre : ".store.t".toList <+: s := List.isPrefixOf_iff_prefix.mp hp
    have hs : s = s.take 8 ++ s.drop 8 := (List.take_append_drop 8 s).symm
    have ht : s.take 8 = ".store.t".toList := by
      have := List.prefix_iff_eq_take.mp hpre
      simpa using this.symm
    rcases hd with hd | hd
    · left; rw [hs, ht, hd]; rfl
    · right; rw [hs, ht, hd]; rfl
  · rintro (h | h) <;> subst h <;> decide

theorem storeSuffixTest_iff (l : List Char) :
    storeSuffixTest l = true ↔
      (∃ a, l = a ++ ".store.t".toList) ∨ (∃ a, l = a ++ ".store.ts".toList) := by
  induction l with
  | nil =>
    constructor
    · intro h; exact absurd h (by decide)
    · rintro (⟨a, ha⟩ | ⟨a, ha⟩) <;> simp at ha
  | cons c rest ih =>
    rw [storeSuffixTest]
    simp only [Bool.or_eq_true, matchStoreSuffixAt_iff, ih,
      cons_eq_append_suffix]
    tauto

/-- C6 (amended): `isStoreFile` is exactly the test of `/\.store\.ts?$/`:
it returns `true` iff the path ends in `.store.t` or in `.store.ts` — not
iff it ends in `.store.ts` or `.store.tsx` as the claim states. -/
theorem isStoreFile_iff_storeSuffix (p : String) :
    isStoreFile p = true ↔
      (∃ a, p.toList = a ++ ".store.t".toList) ∨
      (∃ a, p.toList = a ++ ".store.ts".toList) :=
  storeSuffixTest_iff p.toList

/-- C6 counterexample: a path ending in `.store.tsx` — which the claim says
is classified as a store file — is rejected by `isStoreFile`, and a path
ending in `.store.t` (ending in neither claimed suffix) is accepted. -/
theorem isStoreFile_tsx_counterexample :
    strEndsWith "/a/b.store.tsx" ".store.tsx" = true ∧
    isStoreFile "/a/b.store.tsx" = false ∧
    strEndsWith "/a/b.store.t" ".store.ts" = false ∧
    strEndsWith "/a/b.store.t" ".store.tsx" = false ∧
    isStoreFile "/a/b.store.t" = true := by
  decide

/-- C6 witness: the amended characterisation applied to a concrete path. -/
theorem isStoreFile_iff_witness : isStoreFile "/a/b.store.ts" = true :=
  (isStoreFile_iff_storeSuffix "/a/b.store.ts").mpr
    (Or.inr ⟨"/a/b".toList, by decide⟩)

/-! ## Text-cache behaviour (C9, C10) -/

theorem scheduleAnalysisForStore_indexMaps (st : TrackerState) (f : String) :
    (scheduleAnalysisForStore st f).storeFileToNamesMap =
        st.storeFileToNamesMap ∧
    (scheduleAnalysisForStore st f).storeNameToFilesMap =
        st.storeNameToFilesMap := by
  unfold scheduleAnalysisForStore
  cases h : lookupA st.pendingAnalysis f <;> simp [h]

theorem getDocumentText_indexMaps (env : Env) (st : TrackerState)
    (f : String) :
    ((getDocumentText env st f).2).storeFileToNamesMap =
        st.storeFileToNamesMap ∧
    ((getDocumentText env st f).2).storeNameToFilesMap =
        st.storeNameToFilesMap := by
  unfold getDocumentText
  cases h1 : lookupA env.openDocs f with
  | some text =>
    by_cases h2 : lookupA st.fileCache f ≠ some text
    · simp only [h2, if_pos, if_true]
      by_cases h3 : isStoreFile f = true
      · simp [h2, h3, scheduleAnalysisForStore_indexMaps]
      · simp [h2, h3]
    · simp [h2]
  | none =>
    cases h2 : lookupA st.fileCache f with
    | some c => simp [h2]
    | none =>
      cases h3 : lookupA env.disk f with
      | some t => simp [h2, h3]
      | none => simp [h2, h3]

/-- C9: a file that is not open, not cached, and whose disk read fails is
reported as absence (`undefined`, not an exception — the model is a total
function, mirroring the source's `try`/`catch` returning `undefined`), and
`findStoreDefinitions` on such a file degrades to the empty list. -/
theorem getText_absent_defs_empty (env : Env) (st : TrackerState)
    (p storeName : String)
    (h1 : lookupA env.openDocs p = none)
    (h2 : lookupA st.fileCache p = none)
    (h3 : lookupA env.disk p = none) :
    (getDocumentText env st p).1 = none ∧
    (findStoreDefinitions env st p storeName).1 = [] := by
  have hg : getDocumentText env st p = (none, st) := by
    unfold getDocumentText; rw [h1, h2, h3]
  refine ⟨by rw [hg], ?_⟩
  unfold findStoreDefinitions
  rw [hg]

/-- C9 witness: a concrete unreadable file. -/
theorem getText_absent_defs_empty_witness :
    (getDocumentText ⟨[], [], []⟩ initState "/x.ts").1 = none ∧
    (findStoreDefinitions ⟨[], [], []⟩ initState "/x.ts" "count").1 = [] :=
  getText_absent_defs_empty ⟨[], [], []⟩ initState "/x.ts" "count" rfl rfl rfl

/-- C10: when `getDocumentText` yields absence, `analyzeStoreFile` returns
without touching either index map — a previously indexed store file that
becomes unreadable keeps its old entries. -/
theorem analyzeStoreFile_absent_preserves (env : Env) (st : TrackerState)
    (u : String) (h : (getDocumentText env st u).1 = none) :
    (analyzeStoreFile env st u).storeFileToNamesMap =
        st.storeFileToNamesMap ∧
    (analyzeStoreFile env st u).storeNameToFilesMap =
        st.storeNameToFilesMap := by
  have hmaps := getDocumentText_indexMaps env st u
  unfold analyzeStoreFile
  rcases hg : getDocumentText env st u with ⟨r, st1⟩
  rw [hg] at h hmaps
  cases r with
  | none => simpa using hmaps
  | some t => simp at h

/-- C10 witness: a store file that was indexed, then becomes unreadable
(not on disk, not cached, not open): both maps survive an
`analyzeStoreFile` call untouched. -/
theorem analyzeStoreFile_absent_preserves_witness :
    (analyzeStoreFile ⟨[], [], []⟩
        { initState with
          storeFileToNamesMap := [("/p/a.store.ts", ["count"])]
          storeNameToFilesMap := [("count", ["/p/a.store.ts"])] }
        "/p/a.store.ts").storeFileToNamesMap =
      [("/p/a.store.ts", ["count"])] ∧
    (analyzeStoreFile ⟨[], [], []⟩
        { initState with
          storeFileToNamesMap := [("/p/a.store.ts", ["count"])]
          storeNameToFilesMap := [("count", ["/p/a.store.ts"])] }
        "/p/a.store.ts").storeNameToFilesMap =
      [("count", ["/p/a.store.ts"])] :=
  analyzeStoreFile_absent_preserves ⟨[], [], []⟩
    { initState with
      storeFileToNamesMap := [("/p/a.store.ts", ["count"])]
      storeNameToFilesMap := [("count", ["/p/a.store.ts"])] }
    "/p/a.store.ts" rfl

/-! ## Import-map computation (C1, C5) -/

theorem lookupA_namesFold (resolved : String) (names : List (List Char))
    (m : List (String × String)) (a v : String)
    (h : lookupA (names.foldl (fun m2 n =>
        match parseImportName n with
        | none => m2
        | some (orig, al) => setKey m2 (al.getD orig) resolved) m) a =
      some v) :
    lookupA m a = some v ∨ v = resolved := by
  induction names generalizing m with
  | nil => exact Or.inl h
  | cons n rest ih =>
    rw [List.foldl_cons] at h
    rcases ih _ h with h2 | h2
    · cases hp : parseImportName n with
      | none => rw [hp] at h2; exact Or.inl h2
      | some pr =>
        obtain ⟨orig, al⟩ := pr
        rw [hp] at h2
        by_cases ha : a = al.getD orig
        · subst ha
          rw [lookupA_setKey_self] at h2
          exact Or.inr (Option.some.inj h2).symm
        · rw [lookupA_setKey_ne _ _ _ _ ha] at h2
          exact Or.inl h2
    · exact Or.inr h2

theorem importsFold_sound (env : Env) (f : String) (items : List ImportMatch)
    (m : List (String × String)) (a v : String)
    (h : lookupA (items.foldl (importBindingsStep env f) m) a = some v) :
    lookupA m a = some v ∨
      ∃ im ∈ items,
        v = resolveImportPath env (String.mk im.spec) (dirname f) ∧
        isStoreFile v = true := by
  induction items generalizing m with
  | nil => exact Or.inl h
  | cons im rest ih =>
    rw [List.foldl_cons] at h
    rcases ih _ h with h2 | h2
    · simp only [importBindingsStep] at h2
      by_cases hs :
          isStoreFile (resolveImportPath env (String.mk im.spec) (dirname f)) = true
      · rw [if_pos hs] at h2
        rcases lookupA_namesFold _ _ _ _ _ h2 with h3 | h3
        · exact Or.inl h3
        · exact Or.inr ⟨im, List.mem_cons_self im rest, h3, h3 ▸ hs⟩
      · rw [if_neg hs] at h2
        exact Or.inl h2
    · obtain ⟨im2, hmem, hv⟩ := h2
      exact Or.inr ⟨im2, List.mem_cons_of_mem im hmem, hv⟩

/-- C5 (amended): every binding `analyzeComponentImports` records maps its
alias to the result of `resolveImportPath` on some matched import
specifier, and that result is classified a store file.  `resolveImportPath`
resolves `./`/`../` specifiers against the importing file's directory
(appending `.ts` when absent and present on disk) and passes every other
specifier through verbatim — so a bare specifier contributes exactly when
it itself ends in the store suffix (see the counterexample), rather than
never. -/
theorem componentImportsOf_sound (env : Env) (text f a v : String)
    (h : lookupA (componentImportsOf env text f) a = some v) :
    isStoreFile v = true ∧
      ∃ im ∈ scanImports text.toList,
        v = resolveImportPath env (String.mk im.spec) (dirname f) := by
  unfold componentImportsOf at h
  rcases importsFold_sound env f _ _ _ _ h with h2 | h2
  · simp [lookupA] at h2
  · obtain ⟨im, hmem, hv, hs⟩ := h2
    exact ⟨hs, im, hmem, hv⟩

/-- C5 counterexample: a bare (package-style) specifier that itself ends in
`.store.ts` does contribute a binding, contradicting the claim that
non-relative specifiers never contribute. -/
theorem bare_specifier_contributes :
    lookupA (analyzeComponentImports envC5 initState
        "/p/c.ts").componentImportsMap "/p/c.ts" =
      some [("x", "lib/a.store.ts")] ∧
    strStartsWith "lib/a.store.ts" "./" = false ∧
    strStartsWith "lib/a.store.ts" "../" = false := by
  refine ⟨by decide, by decide, by decide⟩

/-- C5 witness: a relative specifier resolved to a store file on disk. -/
theorem componentImportsOf_sound_witness :
    isStoreFile "/p/a.store.ts" = true ∧
      ∃ im ∈ scanImports ("import { y } from \"./a.store\"\n" : String).toList,
        "/p/a.store.ts" =
          resolveImportPath envC5w (String.mk im.spec) (dirname "/p/c.ts") :=
  componentImportsOf_sound envC5w "import { y } from \"./a.store\"\n"
    "/p/c.ts" "y" "/p/a.store.ts" (by decide)

/-- C1 (code bug): `invalidateCache` deletes the file's cached text and its
`analyzedFiles` mark but not its `componentImportsMap` entry, while
`ensureImportsAnalyzed` is gated on `componentImportsMap` alone — so after
invalidation the stale memoized map (here `[]`, memoized when the file had
no imports) is kept and no rescan happens, although rescanning the file's
current text would produce the binding `x ↦ /p/a.store.ts`. -/
theorem invalidate_keeps_stale_import_map :
    lookupA (ensureImportsAnalyzed envC1 (invalidateCache stC1 "/p/c.ts")
        "/p/c.ts").componentImportsMap "/p/c.ts" = some [] ∧
    componentImportsOf envC1 "import { x } from \"./a.store\"\n" "/p/c.ts" =
      [("x", "/p/a.store.ts")] ∧
    ([] : List (String × String)) ≠ [("x", "/p/a.store.ts")] := by
  refine ⟨by decide, by decide, by decide⟩

/-! ## The debounce table (C8) -/

theorem pendInv_of_fields_eq (st st' : TrackerState)
    (h1 : st'.pendingAnalysis = st.pendingAnalysis)
    (h2 : st'.nextTimeoutId = st.nextTimeoutId)
    (h : PendInv st) : PendInv st' := by
  obtain ⟨ha, hb⟩ := h
  exact ⟨fun p t ht => h2 ▸ ha p t (h1 ▸ ht), h1 ▸ hb⟩

theorem pendInv_schedule (st : TrackerState) (f : String) (h : PendInv st) :
    PendInv (scheduleAnalysisForStore st f) := by
  obtain ⟨ha, hb⟩ := h
  unfold scheduleAnalysisForStore
  cases hl : lookupA st.pendingAnalysis f with
  | none =>
    refine ⟨?_, ?_⟩
    · intro p t ht
      change lookupA (setKey st.pendingAnalysis f st.nextTimeoutId) p =
        some t at ht
      show t < st.nextTimeoutId + 1
      by_cases hp : p = f
      · subst hp
        rw [lookupA_setKey_self] at ht
        have := Option.some.inj ht
        omega
      · rw [lookupA_setKey_ne _ _ _ _ hp] at ht
        have := ha p t ht
        omega
    · show ((setKey st.pendingAnalysis f st.nextTimeoutId).map Prod.fst).Nodup
      exact keys_nodup_setKey _ _ _ hb
  | some tid =>
    refine ⟨?_, ?_⟩
    · intro p t ht
      change lookupA (setKey st.pendingAnalysis f st.nextTimeoutId) p =
        some t at ht
      show t < st.nextTimeoutId + 1
      by_cases hp : p = f
      · subst hp
        rw [lookupA_setKey_self] at ht
        have := Option.some.inj ht
        omega
      · rw [lookupA_setKey_ne _ _ _ _ hp] at ht
        have := ha p t ht
        omega
    · show ((setKey st.pendingAnalysis f st.nextTimeoutId).map Prod.fst).Nodup
      exact keys_nodup_setKey _ _ _ hb

theorem pendInv_pendingDelete (st : TrackerState) (f : String)
    (h : PendInv st) :
    PendInv { st with pendingAnalysis := delKey st.pendingAnalysis f } := by
  obtain ⟨ha, hb⟩ := h
  refine ⟨?_, ?_⟩
  · intro p t ht
    change lookupA (delKey st.pendingAnalysis f) p = some t at ht
    show t < st.nextTimeoutId
    by_cases hp : p = f
    · subst hp; rw [lookupA_delKey_self] at ht; cases ht
    · rw [lookupA_delKey_ne _ _ _ hp] at ht
      exact ha p t ht
  · show ((delKey st.pendingAnalysis f).map Prod.fst).Nodup
    exact keys_nodup_delKey _ _ hb

theorem pendInv_getText (env : Env) (st : TrackerState) (f : String)
    (h : PendInv st) : PendInv ((getDocumentText env st f).2) := by
  unfold getDocumentText
  cases h1 : lookupA env.openDocs f with
  | some text =>
    dsimp only
    by_cases h2 : lookupA st.fileCache f ≠ some text
    · rw [if_pos h2]
      dsimp only
      by_cases h3 : isStoreFile f = true
      · rw [if_pos h3]
        exact pendInv_of_fields_eq _ _ rfl rfl
          (pendInv_schedule _ f (pendInv_of_fields_eq _ _ rfl rfl h))
      · rw [if_neg h3]
        exact pendInv_of_fields_eq _ _ rfl rfl h
    · rw [if_neg h2]; exact h
  | none =>
    dsimp only
    cases h2 : lookupA st.fileCache f with
    | some c => exact h
    | none =>
      dsimp only
      cases h3 : lookupA env.disk f with
      | some t => exact pendInv_of_fields_eq _ _ rfl rfl h
      | none => exact h

theorem pendInv_invalidate (st : TrackerState) (f : String) (h : PendInv st) :
    PendInv (invalidateCache st f) := by
  unfold invalidateCache
  dsimp only
  by_cases h3 : isStoreFile f = true
  · rw [if_pos h3]
    exact pendInv_schedule _ _ (pendInv_of_fields_eq _ _ rfl rfl h)
  · rw [if_neg h3]
    exact pendInv_of_fields_eq _ _ rfl rfl h

theorem pendInv_analyzeComponentImports (env : Env) (st : TrackerState)
    (f : String) (h : PendInv st) :
    PendInv (analyzeComponentImports env st f) := by
  unfold analyzeComponentImports
  by_cases h0 : f ∈ st.analyzedFiles
  · rw [if_pos h0]; exact h
  · rw [if_neg h0]
    have hg := pendInv_getText env st f h
    rcases hgt : getDocumentText env st f with ⟨r, st1⟩
    rw [hgt] at hg
    cases r with
    | none => exact hg
    | some text =>
      dsimp only
      by_cases ht : text = ""
      · rw [if_pos ht]; exact hg
      · rw [if_neg ht]
        exact pendInv_of_fields_eq _ _ rfl rfl hg

theorem pendInv_ensureImports (env : Env) (st : TrackerState) (f : String)
    (h : PendInv st) : PendInv (ensureImportsAnalyzed env st f) := by
  unfold ensureImportsAnalyzed
  by_cases h0 : (lookupA st.componentImportsMap f).isSome = true
  · rw [if_pos h0]; exact h
  · rw [if_neg h0]
    exact pendInv_analyzeComponentImports env st f h

theorem pendInv_analyzeStoreFile (env : Env) (st : TrackerState) (f : String)
    (h : PendInv st) : PendInv (analyzeStoreFile env st f) := by
  unfold analyzeStoreFile
  have hg := pendInv_getText env st f h
  rcases hgt : getDocumentText env st f with ⟨r, st1⟩
  rw [hgt] at hg
  cases r with
  | none => exact hg
  | some text =>
    dsimp only
    by_cases ht : text = ""
    · rw [if_pos ht]; exact hg
    · rw [if_neg ht]
      exact pendInv_of_fields_eq _ _ rfl rfl hg

theorem pendInv_findStoreDefinitions (env : Env) (st : TrackerState)
    (sf nm : String) (h : PendInv st) :
    PendInv ((findStoreDefinitions env st sf nm).2) := by
  unfold findStoreDefinitions
  have hg := pendInv_getText env st sf h
  rcases hgt : getDocumentText env st sf with ⟨r, st1⟩
  rw [hgt] at hg
  cases r with
  | none => exact hg
  | some text =>
    dsimp only
    by_cases ht : text = ""
    · rw [if_pos ht]; exact hg
    · rw [if_neg ht]; exact hg

theorem pendInv_refsLoop (env : Env) (sf nm : String) (files : List String)
    (st : TrackerState) (vis : List String) (acc : List Loc)
    (b : Option Nat) (h : PendInv st) :
    PendInv ((refsLoop env sf nm files st vis acc b).2) := by
  induction files generalizing st vis acc b with
  | nil => exact h
  | cons f rest ih =>
    show PendInv ((refsLoop env sf nm (f :: rest) st vis acc b).2)
    rw [refsLoop]
    by_cases hb : b = some 0
    · rw [if_pos hb]; exact h
    · rw [if_neg hb]
      dsimp only
      by_cases hf : f = sf
      · rw [if_pos hf]; exact ih _ _ _ _ h
      · rw [if_neg hf]
        have hg := pendInv_getText env st f h
        rcases hgt : getDocumentText env st f with ⟨r, st1⟩
        rw [hgt] at hg
        cases r with
        | none => exact ih _ _ _ _ hg
        | some content =>
          dsimp only
          by_cases hc : content = ""
          · rw [if_pos hc]; exact ih _ _ _ _ hg
          · rw [if_neg hc]
            by_cases hh : hasImportedStore content sf nm = true
            · rw [if_pos hh]
              exact ih _ _ _ _ hg
            · rw [if_neg hh]; exact ih _ _ _ _ hg

theorem pendInv_findRefs (env : Env) (st : TrackerState) (sf nm : String)
    (b : Option Nat) (h : PendInv st) :
    PendInv ((findStoreVariableReferences env st sf nm b).2) := by
  unfold findStoreVariableReferences
  exact pendInv_refsLoop env sf nm env.workspaceFiles _ _ _ b
    (pendInv_findStoreDefinitions env st sf nm h)

theorem pendInv_findCompRefs (env : Env) (st : TrackerState) (cf nm : String)
    (h : PendInv st) :
    PendInv ((findImportedStoreReferences env st cf nm).2) := by
  unfold findImportedStoreReferences
  have h1 := pendInv_ensureImports env st cf h
  dsimp only
  cases hm : lookupA (ensureImportsAnalyzed env st cf).componentImportsMap cf with
  | none => exact h1
  | some compMap =>
    dsimp only
    cases hsn : lookupA compMap nm with
    | none => exact h1
    | some sfp =>
      dsimp only
      have h2 := pendInv_findStoreDefinitions env _ sfp nm h1
      rcases hd : findStoreDefinitions env (ensureImportsAnalyzed env st cf) sfp nm
        with ⟨defs, st2⟩
      rw [hd] at h2
      have h3 := pendInv_getText env st2 cf h2
      rcases hgt : getDocumentText env st2 cf with ⟨r, st3⟩
      rw [hgt] at h3
      cases r with
      | none => exact h3
      | some content =>
        dsimp only
        by_cases hc : content = ""
        · rw [if_pos hc]; exact h3
        · rw [if_neg hc]; exact h3

theorem pendInv_applyOp (st : TrackerState) (step : Env × Op)
    (h : PendInv st) : PendInv (applyOp st step) := by
  obtain ⟨env, op⟩ := step
  cases op with
  | getText f => exact pendInv_getText env st f h
  | invalidate f => exact pendInv_invalidate st f h
  | analyzeStore f => exact pendInv_analyzeStoreFile env st f h
  | ensureImports f => exact pendInv_ensureImports env st f h
  | findRefs sf nm b => exact pendInv_findRefs env st sf nm b h
  | findCompRefs cf nm => exact pendInv_findCompRefs env st cf nm h
  | fireTimeout f =>
    exact pendInv_pendingDelete _ f (pendInv_analyzeStoreFile env st f h)

theorem pendInv_runOps (steps : List (Env × Op)) : PendInv (runOps steps) := by
  have hinit : PendInv initState := by
    refine ⟨?_, ?_⟩
    · intro p t ht; cases ht
    · exact List.nodup_nil
  rw [runOps]
  induction steps using List.reverseRecOn with
  | nil => exact hinit
  | append_singleton steps step ih =>
    rw [List.foldl_append, List.foldl_cons, List.foldl_nil]
    exact pendInv_applyOp _ step ih

/-- C8: after any sequence of tracker operations the pending-reindex table
holds at most one entry per file path, and a `scheduleAnalysisForStore`
call for a path that already has a pending task records that task's id as
cancelled (`clearTimeout`) and replaces the entry with the fresh id, which
is never the old one — tasks for the same file never stack. -/
theorem pending_no_stacking (steps : List (Env × Op)) :
    (((runOps steps).pendingAnalysis.map Prod.fst)).Nodup ∧
    (∀ p t, lookupA (runOps steps).pendingAnalysis p = some t →
      t ∈ (scheduleAnalysisForStore (runOps steps) p).cancelledTimeouts ∧
      lookupA (scheduleAnalysisForStore (runOps steps) p).pendingAnalysis p =
        some (runOps steps).nextTimeoutId ∧
      (runOps steps).nextTimeoutId ≠ t) := by
  obtain ⟨ha, hb⟩ := pendInv_runOps steps
  refine ⟨hb, ?_⟩
  intro p t ht
  have hlt := ha p t ht
  unfold scheduleAnalysisForStore
  rw [ht]
  refine ⟨List.mem_cons_self t _, ?_, by omega⟩
  change lookupA (setKey (runOps steps).pendingAnalysis p
    (runOps steps).nextTimeoutId) p = some (runOps steps).nextTimeoutId
  exact lookupA_setKey_self _ _ _

/-- C8 witness: an edit to an open store file schedules task `0`; a second
schedule for the same path cancels it and installs the fresh id `1`. -/
theorem pending_no_stacking_witness :
    (0 : Nat) ∈ (scheduleAnalysisForStore
        (runOps [(⟨[("/s/a.store.ts", "x")], [], []⟩,
          Op.getText "/s/a.store.ts")]) "/s/a.store.ts").cancelledTimeouts ∧
    lookupA (scheduleAnalysisForStore
        (runOps [(⟨[("/s/a.store.ts", "x")], [], []⟩,
          Op.getText "/s/a.store.ts")]) "/s/a.store.ts").pendingAnalysis
      "/s/a.store.ts" =
      some (runOps [(⟨[("/s/a.store.ts", "x")], [], []⟩,
        Op.getText "/s/a.store.ts")]).nextTimeoutId ∧
    (runOps [(⟨[("/s/a.store.ts", "x")], [], []⟩,
      Op.getText "/s/a.store.ts")]).nextTimeoutId ≠ 0 :=
  (pending_no_stacking [(⟨[("/s/a.store.ts", "x")], [], []⟩,
    Op.getText "/s/a.store.ts")]).2 "/s/a.store.ts" 0 (by decide)

/-! ## Forward/reverse index consistency (C3) -/

theorem mem_foldl_addElem (names : List String) (acc : List String)
    (q : String) :
    q ∈ names.foldl addElem acc ↔ q ∈ acc ∨ q ∈ names := by
  induction names generalizing acc with
  | nil => simp
  | cons n rest ih =>
    rw [List.foldl_cons, ih, mem_addElem]
    simp only [List.mem_cons]
    tauto

theorem mem_addFileToName (rev : List (String × List String))
    (n f g q : String) :
    g ∈ (lookupA (addFileToName rev n f) q).getD [] ↔
      g ∈ (lookupA rev q).getD [] ∨ (g = f ∧ q = n) := by
  unfold addFileToName
  cases hl : lookupA rev n with
  | none =>
    by_cases hq : q = n
    · subst hq
      rw [lookupA_setKey_self, hl]
      simp
    · rw [lookupA_setKey_ne _ _ _ _ hq]
      simp [hq]
  | some fs =>
    by_cases hq : q = n
    · subst hq
      rw [lookupA_setKey_self, hl]
      simp [mem_addElem]
    · rw [lookupA_setKey_ne _ _ _ _ hq]
      simp [hq]

theorem mem_addFold (names : List String) (f : String)
    (rev : List (String × List String)) (g q : String) :
    g ∈ (lookupA (names.foldl (fun rev2 n => addFileToName rev2 n f) rev)
        q).getD [] ↔
      g ∈ (lookupA rev q).getD [] ∨ (g = f ∧ q ∈ names) := by
  induction names generalizing rev with
  | nil => simp
  | cons n rest ih =>
    rw [List.foldl_cons, ih, mem_addFileToName]
    simp only [List.mem_cons]
    tauto

theorem mem_removeFileFromName (rev : List (String × List String))
    (o f g q : String) :
    g ∈ (lookupA (removeFileFromName rev o f) q).getD [] ↔
      g ∈ (lookupA rev q).getD [] ∧ ¬(g = f ∧ q = o) := by
  unfold removeFileFromName
  cases hl : lookupA rev o with
  | none =>
    by_cases hq : q = o
    · subst hq; rw [hl]; simp
    · simp [hq]
  | some fs =>
    dsimp only
    by_cases he : fs.filter (fun g2 => decide (g2 ≠ f)) = []
    · rw [if_pos he]
      by_cases hq : q = o
      · subst hq
        rw [lookupA_delKey_self, hl]
        have hall : ∀ x ∈ fs, x = f := by
          intro x hx
          by_contra hxf
          have hxin : x ∈ fs.filter (fun g2 => decide (g2 ≠ f)) :=
            List.mem_filter.mpr ⟨hx, by simpa using hxf⟩
          rw [he] at hxin
          cases hxin
        constructor
        · intro hg; cases hg
        · rintro ⟨hg, hnot⟩
          exact (hnot ⟨hall g hg, by trivial⟩).elim
      · rw [lookupA_delKey_ne _ _ _ hq]
        simp [hq]
    · rw [if_neg he]
      by_cases hq : q = o
      · subst hq
        rw [lookupA_setKey_self, hl]
        simp only [Option.getD_some, List.mem_filter, decide_eq_true_eq]
        tauto
      · rw [lookupA_setKey_ne _ _ _ _ hq]
        simp [hq]

theorem mem_rmFold (olds : List String) (newSet : List String) (f : String)
    (rev : List (String × List String)) (g q : String) :
    g ∈ (lookupA (olds.foldl (fun rev2 o =>
        if o ∈ newSet then rev2 else removeFileFromName rev2 o f) rev)
        q).getD [] ↔
      g ∈ (lookupA rev q).getD [] ∧
        ¬(g = f ∧ q ∈ olds ∧ q ∉ newSet) := by
  induction olds generalizing rev with
  | nil => simp
  | cons o rest ih =>
    rw [List.foldl_cons]
    by_cases ho : o ∈ newSet
    · rw [if_pos ho, ih]
      simp only [List.mem_cons]
      constructor
      · rintro ⟨hg, hnot⟩
        refine ⟨hg, ?_⟩
        rintro ⟨hgf, hq | hq, hqn⟩
        · subst hq; exact hqn ho
        · exact hnot ⟨hgf, hq, hqn⟩
      · rintro ⟨hg, hnot⟩
        refine ⟨hg, ?_⟩
        rintro ⟨hgf, hq, hqn⟩
        exact hnot ⟨hgf, Or.inr hq, hqn⟩
    · rw [if_neg ho, ih, mem_removeFileFromName]
      simp only [List.mem_cons]
      constructor
      · rintro ⟨⟨hg, hno⟩, hnot⟩
        refine ⟨hg, ?_⟩
        rintro ⟨hgf, hq | hq, hqn⟩
        · exact hno ⟨hgf, hq⟩
        · exact hnot ⟨hgf, hq, hqn⟩
      · rintro ⟨hg, hnot⟩
        refine ⟨⟨hg, ?_⟩, ?_⟩
        · rintro ⟨hgf, hq⟩
          exact hnot ⟨hgf, Or.inl hq, hq ▸ ho⟩
        · rintro ⟨hgf, hq, hqn⟩
          exact hnot ⟨hgf, Or.inr hq, hqn⟩

theorem nonempty_addFileToName (rev : List (String × List String))
    (n f : String)
    (hB : ∀ q fs, lookupA rev q = some fs → fs ≠ []) :
    ∀ q fs, lookupA (addFileToName rev n f) q = some fs → fs ≠ [] := by
  intro q fs hq
  unfold addFileToName at hq
  cases hl : lookupA rev n with
  | none =>
    rw [hl] at hq
    by_cases hqn : q = n
    · subst hqn
      rw [lookupA_setKey_self] at hq
      cases hq
      simp
    · rw [lookupA_setKey_ne _ _ _ _ hqn] at hq
      exact hB q fs hq
  | some fs0 =>
    rw [hl] at hq
    by_cases hqn : q = n
    · subst hqn
      rw [lookupA_setKey_self] at hq
      cases hq
      unfold addElem
      by_cases hmem : f ∈ fs0
      · rw [if_pos hmem]; exact hB _ _ hl
      · rw [if_neg hmem]; simp
    · rw [lookupA_setKey_ne _ _ _ _ hqn] at hq
      exact hB q fs hq

theorem nonempty_addFold (names : List String) (f : String)
    (rev : List (String × List String))
    (hB : ∀ q fs, lookupA rev q = some fs → fs ≠ []) :
    ∀ q fs, lookupA (names.foldl (fun rev2 n => addFileToName rev2 n f) rev)
      q = some fs → fs ≠ [] := by
  induction names generalizing rev with
  | nil => exact hB
  | cons n rest ih =>
    rw [List.foldl_cons]
    exact ih _ (nonempty_addFileToName rev n f hB)

theorem nonempty_removeFileFromName (rev : List (String × List String))
    (o f : String)
    (hB : ∀ q fs, lookupA rev q = some fs → fs ≠ []) :
    ∀ q fs, lookupA (removeFileFromName rev o f) q = some fs → fs ≠ [] := by
  intro q fs hq
  unfold removeFileFromName at hq
  cases hl : lookupA rev o with
  | none => rw [hl] at hq; exact hB q fs hq
  | some fs0 =>
    rw [hl] at hq
    dsimp only at hq
    by_cases he : fs0.filter (fun g2 => decide (g2 ≠ f)) = []
    · rw [if_pos he] at hq
      by_cases hqo : q = o
      · subst hqo; rw [lookupA_delKey_self] at hq; cases hq
      · rw [lookupA_delKey_ne _ _ _ hqo] at hq
        exact hB q fs hq
    · rw [if_neg he] at hq
      by_cases hqo : q = o
      · subst hqo
        rw [lookupA_setKey_self] at hq
        cases hq
        exact he
      · rw [lookupA_setKey_ne _ _ _ _ hqo] at hq
        exact hB q fs hq

theorem nonempty_rmFold (olds : List String) (newSet : List String)
    (f : String) (rev : List (String × List String))
    (hB : ∀ q fs, lookupA rev q = some fs → fs ≠ []) :
    ∀ q fs, lookupA (olds.foldl (fun rev2 o =>
        if o ∈ newSet then rev2 else removeFileFromName rev2 o f) rev) q =
      some fs → fs ≠ [] := by
  induction olds generalizing rev with
  | nil => exact hB
  | cons o rest ih =>
    rw [List.foldl_cons]
    by_cases ho : o ∈ newSet
    · rw [if_pos ho]; exact ih _ hB
    · rw [if_neg ho]
      exact ih _ (nonempty_removeFileFromName rev o f hB)

theorem indexInv_analyzeStoreFile (env : Env) (st : TrackerState)
    (f : String) (h : IndexInv st) : IndexInv (analyzeStoreFile env st f) := by
  obtain ⟨hA, hB⟩ := h
  have hmaps := getDocumentText_indexMaps env st f
  unfold analyzeStoreFile
  rcases hgt : getDocumentText env st f with ⟨r, st1⟩
  rw [hgt] at hmaps
  obtain ⟨hm1, hm2⟩ := hmaps
  cases r with
  | none => exact ⟨fun f2 n => hm1 ▸ hm2 ▸ hA f2 n, fun n fs => hm2 ▸ hB n fs⟩
  | some text =>
    dsimp only at hm1 hm2 ⊢
    by_cases ht : text = ""
    · rw [if_pos ht]
      exact ⟨fun f2 n => hm1 ▸ hm2 ▸ hA f2 n, fun n fs => hm2 ▸ hB n fs⟩
    · rw [if_neg ht]
      refine ⟨?_, ?_⟩
      · intro f2 n
        dsimp only
        rw [mem_rmFold, mem_addFold]
        have hA1 : f2 ∈ (lookupA st1.storeNameToFilesMap n).getD [] ↔
            n ∈ (lookupA st1.storeFileToNamesMap f2).getD [] := by
          rw [hm1, hm2]; exact (hA f2 n).symm
        rw [hA1]
        by_cases hf : f2 = f
        · subst hf
          rw [lookupA_setKey_self]
          simp only [Option.getD_some, mem_foldl_addElem,
            List.not_mem_nil, false_or]
          tauto
        · rw [lookupA_setKey_ne _ _ _ _ hf]
          simp only [mem_foldl_addElem, List.not_mem_nil, false_or]
          tauto
      · intro n fs
        dsimp only
        intro hq
        refine nonempty_rmFold _ _ _ _ ?_ n fs hq
        refine nonempty_addFold _ _ _ ?_
        intro q fs2 hq2
        rw [hm2] at hq2
        exact hB q fs2 hq2

/-- C3: starting from the freshly constructed tracker (both index maps
empty), after any sequence of `analyzeStoreFile` calls (each under an
arbitrary host environment) the forward and reverse indices are mutually
consistent — a name is in a file's forward entry iff the file is in the
name's reverse entry — and the reverse index never holds an entry whose
file set is empty.  (`analyzeStoreFile` is the only function of the source
that writes either map; additions and the diff-based removals are paired
inside it as modelled here.) -/
theorem index_consistency (calls : List (Env × String)) :
    IndexInv (calls.foldl (fun st c => analyzeStoreFile c.1 st c.2)
      initState) := by
  have hinit : IndexInv initState := by
    refine ⟨?_, ?_⟩
    · intro f n
      simp [lookupA, initState]
    · intro n fs hq
      cases hq
  induction calls using List.reverseRecOn with
  | nil => exact hinit
  | append_singleton calls c ih =>
    rw [List.foldl_append, List.foldl_cons, List.foldl_nil]
    exact indexInv_analyzeStoreFile c.1 _ c.2 ih

/-! ## Cancellation (C7) -/

theorem refsLoop_budget (env : Env) (sf nm : String) (files : List String)
    (st : TrackerState) (vis : List String) (acc : List Loc) (k : Nat) :
    refsLoop env sf nm files st vis acc (some k) =
      refsLoop env sf nm (files.take k) st vis acc none := by
  induction files generalizing st vis acc k with
  | nil => rw [List.take_nil]; rfl
  | cons f rest ih =>
    cases k with
    | zero =>
      rw [List.take_zero]
      conv_lhs => rw [refsLoop]
      rw [if_pos (rfl : (some 0 : Option Nat) = some 0)]
      rfl
    | succ k2 =>
      rw [List.take_succ_cons, refsLoop]
      conv_rhs => rw [refsLoop]
      rw [if_neg (by simp : ¬ (some (k2 + 1) : Option Nat) = some 0),
        if_neg (by simp : ¬ (none : Option Nat) = some 0)]
      dsimp only
      simp only [Option.map_some', Nat.add_sub_cancel, Option.map_none']
      by_cases hf : f = sf
      · rw [if_pos hf, if_pos hf]
        exact ih st vis acc k2
      · rw [if_neg hf, if_neg hf]
        rcases hgt : getDocumentText env st f with ⟨r, st1⟩
        cases r with
        | none => exact ih st1 vis acc k2
        | some content =>
          dsimp only
          by_cases hc : content = ""
          · rw [if_pos hc, if_pos hc]
            exact ih st1 vis acc k2
          · rw [if_neg hc, if_neg hc]
            by_cases hh : hasImportedStore content sf nm = true
            · rw [if_pos hh, if_pos hh]
              exact ih st1 _ _ k2
            · rw [if_neg hh, if_neg hh]
              exact ih st1 vis acc k2

theorem refsLoop_env_fields (env env2 : Env)
    (ho : env2.openDocs = env.openDocs) (hd : env2.disk = env.disk)
    (sf nm : String) (files : List String) (st : TrackerState)
    (vis : List String) (acc : List Loc) (b : Option Nat) :
    refsLoop env2 sf nm files st vis acc b =
      refsLoop env sf nm files st vis acc b := by
  induction files generalizing st vis acc b with
  | nil => rfl
  | cons f rest ih =>
    rw [refsLoop]
    conv_rhs => rw [refsLoop]
    have hgt : getDocumentText env2 st f = getDocumentText env st f := by
      unfold getDocumentText
      rw [ho, hd]
    by_cases hb : b = some 0
    · rw [if_pos hb, if_pos hb]
    · rw [if_neg hb, if_neg hb]
      dsimp only
      by_cases hf : f = sf
      · rw [if_pos hf, if_pos hf]
        exact ih st vis acc _
      · rw [if_neg hf, if_neg hf]
        rw [hgt]
        rcases h2 : getDocumentText env st f with ⟨r, st1⟩
        cases r with
        | none => exact ih st1 vis acc _
        | some content =>
          dsimp only
          by_cases hc : content = ""
          · rw [if_pos hc, if_pos hc]
            exact ih st1 vis acc _
          · rw [if_neg hc, if_neg hc]
            by_cases hh : hasImportedStore content sf nm = true
            · rw [if_pos hh, if_pos hh]
              exact ih st1 _ _ _
            · rw [if_neg hh, if_neg hh]
              exact ih st1 vis acc _

/-- C7: if the cancellation token becomes signalled after the first `k`
candidate files have been scanned, `findStoreVariableReferences` returns
normally (the model is a total function returning the accumulated list —
the source's `break` raises nothing, even when the accumulated list is
empty) and its result — locations and final tracker state alike — is
exactly what the uncancelled search over only those first `k` candidate
files produces: the definition spans from the store file plus the
references found in the first `k` files, with no contribution from any
unscanned file.  The signal is checked once per candidate file, at the top
of the loop body. -/
theorem findRefs_cancellation (env : Env) (st : TrackerState)
    (sf nm : String) (k : Nat) :
    findStoreVariableReferences env st sf nm (some k) =
      findStoreVariableReferences
        { env with workspaceFiles := env.workspaceFiles.take k }
        st sf nm none := by
  unfold findStoreVariableReferences
  dsimp only
  have hdefs : findStoreDefinitions
      { env with workspaceFiles := env.workspaceFiles.take k } st sf nm =
      findStoreDefinitions env st sf nm := rfl
  rw [hdefs]
  rw [refsLoop_budget]
  exact (refsLoop_env_fields env
    { env with workspaceFiles := env.workspaceFiles.take k } rfl rfl
    sf nm _ _ _ _ none).symm

/-! ## Character classes -/

theorem char_le_toNat (a b : Char) (h : a ≤ b) : a.val.toNat ≤ b.val.toNat := by
  have h2 : a.val ≤ b.val := h
  rw [UInt32.le_def] at h2
  exact h2

theorem word_char_val (c : Char) (h : isWordChar c = true) :
    (48 ≤ c.val.toNat ∧ c.val.toNat ≤ 57) ∨
    (65 ≤ c.val.toNat ∧ c.val.toNat ≤ 90) ∨
    (97 ≤ c.val.toNat ∧ c.val.toNat ≤ 122) ∨ c.val.toNat = 95 := by
  unfold isWordChar at h
  unfold Char.isAlpha Char.isUpper Char.isLower Char.isDigit at h
  simp only [Bool.or_eq_true, Bool.and_eq_true, decide_eq_true_eq,
    ge_iff_le, or_assoc] at h
  rcases h with ⟨h1, h2⟩ | ⟨h1, h2⟩ | ⟨h1, h2⟩ | h
  · rw [UInt32.le_def] at h1 h2
    exact Or.inr (Or.inl ⟨h1, h2⟩)
  · rw [UInt32.le_def] at h1 h2
    exact Or.inr (Or.inr (Or.inl ⟨h1, h2⟩))
  · rw [UInt32.le_def] at h1 h2
    exact Or.inl ⟨h1, h2⟩
  · subst h
    exact Or.inr (Or.inr (Or.inr rfl))

theorem space_char_val (c : Char) (h : isSpaceChar c = true) :
    c.val.toNat = 32 ∨ c.val.toNat = 9 ∨ c.val.toNat = 10 ∨
    c.val.toNat = 13 ∨ c.val.toNat = 11 ∨ c.val.toNat = 12 ∨
    c.val.toNat = 160 ∨ c.val.toNat = 5760 ∨
    (8192 ≤ c.val.toNat ∧ c.val.toNat ≤ 8202) ∨
    c.val.toNat = 8232 ∨ c.val.toNat = 8233 ∨ c.val.toNat = 8239 ∨
    c.val.toNat = 8287 ∨ c.val.toNat = 12288 ∨ c.val.toNat = 65279 := by
  unfold isSpaceChar at h
  simp only [Bool.or_eq_true, Bool.and_eq_true, decide_eq_true_eq,
    or_assoc] at h
  rcases h with h|h|h|h|h|h|h|h|⟨h1,h2⟩|h|h|h|h|h|h
  all_goals first
    | (subst h; decide)
    | exact Or.inr (Or.inr (Or.inr (Or.inr (Or.inr (Or.inr (Or.inr (Or.inr
        (Or.inl ⟨char_le_toNat _ _ h1, char_le_toNat _ _ h2⟩))))))))

theorem space_not_word (c : Char) (h : isSpaceChar c = true) :
    isWordChar c = false := by
  by_contra hw
  rw [Bool.not_eq_false] at hw
  have h1 := space_char_val c h
  have h2 := word_char_val c hw
  rcases h1 with h1|h1|h1|h1|h1|h1|h1|h1|⟨h1a,h1b⟩|h1|h1|h1|h1|h1|h1 <;>
    rcases h2 with ⟨h2a,h2b⟩|⟨h2a,h2b⟩|⟨h2a,h2b⟩|h2 <;> omega

theorem word_not_newline (c : Char) (h : isWordChar c = true) :
    isNewlineChar c = false := by
  by_contra hn
  rw [Bool.not_eq_false] at hn
  unfold isNewlineChar at hn
  simp only [Bool.or_eq_true, decide_eq_true_eq] at hn
  rcases hn with hn | hn <;> subst hn <;> exact absurd h (by decide)

/-! ## `firstIdx` (`String.prototype.indexOf`) -/

theorem firstIdx_sound (nm : List Char) :
    ∀ l d, firstIdx nm l = some d → nm <+: l.drop d := by
  intro l
  induction l with
  | nil =>
    intro d h
    unfold firstIdx at h
    by_cases hn : nm = []
    · subst hn
      simp at h
      subst h
      simp
    · rw [if_neg hn] at h
      cases h
  | cons c rest ih =>
    intro d h
    unfold firstIdx at h
    by_cases hp : nm.isPrefixOf (c :: rest)
    · rw [if_pos hp] at h
      cases h
      simpa using List.isPrefixOf_iff_prefix.mp hp
    · rw [if_neg hp] at h
      cases hfi : firstIdx nm rest with
      | none => rw [hfi] at h; cases h
      | some d2 =>
        rw [hfi] at h
        cases h
        simpa using ih d2 hfi

theorem firstIdx_minimal (nm : List Char) :
    ∀ l d, firstIdx nm l = some d → ∀ e, e < d → ¬ nm <+: l.drop e := by
  intro l
  induction l with
  | nil =>
    intro d h e he
    unfold firstIdx at h
    by_cases hn : nm = []
    · rw [if_pos hn] at h
      cases h
      omega
    · rw [if_neg hn] at h
      cases h
  | cons c rest ih =>
    intro d h e he
    unfold firstIdx at h
    by_cases hp : nm.isPrefixOf (c :: rest)
    · rw [if_pos hp] at h
      cases h
      omega
    · rw [if_neg hp] at h
      cases hfi : firstIdx nm rest with
      | none => rw [hfi] at h; cases h
      | some d2 =>
        rw [hfi] at h
        simp only [Option.map_some'] at h
        cases h
        cases e with
        | zero =>
          intro hcon
          exact hp (List.isPrefixOf_iff_prefix.mpr (by simpa using hcon))
        | succ e2 =>
          have := ih d2 hfi e2 (by omega)
          simpa using this

theorem firstIdx_complete (nm : List Char) :
    ∀ l d, nm <+: l.drop d → (firstIdx nm l).isSome = true := by
  intro l
  induction l with
  | nil =>
    intro d h
    rw [List.drop_nil] at h
    have hn : nm = [] := List.prefix_nil.mp h
    subst hn
    rfl
  | cons c rest ih =>
    intro d h
    unfold firstIdx
    by_cases hp : nm.isPrefixOf (c :: rest)
    · rw [if_pos hp]; rfl
    · rw [if_neg hp]
      cases d with
      | zero =>
        rw [List.drop_zero] at h
        exact absurd (List.isPrefixOf_iff_prefix.mpr h) hp
      | succ d2 =>
        rw [List.drop_succ_cons] at h
        have := ih d2 h
        cases hfi : firstIdx nm rest with
        | none => rw [hfi] at this; cases this
        | some d3 => simp

/-! ## Structure of a `findStoreDefinitions` pattern match -/

theorem prefix_of_append_left (l a b : List Char) (h : l <+: a ++ b)
    (hlen : l.length ≤ a.length) : l <+: a := by
  have h1 : l = (a ++ b).take l.length := List.prefix_iff_eq_take.mp h
  rw [List.take_append_eq_append_take, Nat.sub_eq_zero_of_le hlen,
    List.take_zero, List.append_nil] at h1
  rw [h1]
  exact List.take_prefix _ _

theorem take_of_isPrefixOf (a s : List Char) (h : a.isPrefixOf s = true) :
    s.take a.length = a :=
  (List.prefix_iff_eq_take.mp (List.isPrefixOf_iff_prefix.mp h)).symm

theorem length_le_of_isPrefixOf (a s : List Char)
    (h : a.isPrefixOf s = true) : a.length ≤ s.length :=
  (List.isPrefixOf_iff_prefix.mp h).length_le

theorem takeWhile_take (p : Char → Bool) (s : List Char) :
    s.take (takeWhileLen p s) = s.takeWhile p :=
  (List.prefix_iff_eq_take.mp (List.takeWhile_prefix p)).symm

theorem takeWhileLen_le (p : Char → Bool) (s : List Char) :
    takeWhileLen p s ≤ s.length := by
  unfold takeWhileLen
  exact (List.takeWhile_prefix p).length_le

theorem matchKeywordAt_spec (s kw : List Char)
    (h : matchKeywordAt s = some kw) :
    (kw = "const".toList ∨ kw = "let".toList ∨ kw = "var".toList) ∧
      s.take kw.length = kw ∧ kw.length ≤ s.length := by
  unfold matchKeywordAt at h
  by_cases h1 : "const".toList.isPrefixOf s = true
  · rw [if_pos h1] at h
    cases h
    exact ⟨Or.inl rfl, take_of_isPrefixOf _ _ h1,
      length_le_of_isPrefixOf _ _ h1⟩
  · rw [if_neg h1] at h
    by_cases h2 : "let".toList.isPrefixOf s = true
    · rw [if_pos h2] at h
      cases h
      exact ⟨Or.inr (Or.inl rfl), take_of_isPrefixOf _ _ h2,
        length_le_of_isPrefixOf _ _ h2⟩
    · rw [if_neg h2] at h
      by_cases h3 : "var".toList.isPrefixOf s = true
      · rw [if_pos h3] at h
        cases h
        exact ⟨Or.inr (Or.inr rfl), take_of_isPrefixOf _ _ h3,
          length_le_of_isPrefixOf _ _ h3⟩
      · rw [if_neg h3] at h
        cases h

theorem defMatchAt_spec (s nm : List Char) (len idr : Nat)
    (h : defMatchAt s nm = some (len, idr)) :
    ∃ sp1 kw sp2,
      s.take len = "export".toList ++ sp1 ++ kw ++ sp2 ++ nm ∧
      sp1 ≠ [] ∧ sp2 ≠ [] ∧
      (∀ c ∈ sp1, isSpaceChar c = true) ∧
      (∀ c ∈ sp2, isSpaceChar c = true) ∧
      (kw = "const".toList ∨ kw = "let".toList ∨ kw = "var".toList) ∧
      idr = 6 + sp1.length + kw.length + sp2.length ∧
      len = idr + nm.length ∧ len ≤ s.length := by
  unfold defMatchAt at h
  by_cases h0 : "export".toList.isPrefixOf s = true
  case neg => rw [if_neg h0] at h; cases h
  rw [if_pos h0] at h
  dsimp only at h
  by_cases h1 : takeWhileLen isSpaceChar (s.drop 6) = 0
  case pos => rw [if_pos h1] at h; cases h
  rw [if_neg h1] at h
  cases hk : matchKeywordAt
      ((s.drop 6).drop (takeWhileLen isSpaceChar (s.drop 6))) with
  | none => rw [hk] at h; cases h
  | some kw =>
  rw [hk] at h
  dsimp only at h
  by_cases h2 : takeWhileLen isSpaceChar
      (((s.drop 6).drop (takeWhileLen isSpaceChar (s.drop 6))).drop
        kw.length) = 0
  case pos => rw [if_pos h2] at h; cases h
  rw [if_neg h2] at h
  by_cases h3 : nm.isPrefixOf
      ((((s.drop 6).drop (takeWhileLen isSpaceChar (s.drop 6))).drop
          kw.length).drop
        (takeWhileLen isSpaceChar
          (((s.drop 6).drop (takeWhileLen isSpaceChar (s.drop 6))).drop
            kw.length))) = true
  case neg => rw [if_neg h3] at h; cases h
  rw [if_pos h3] at h
  by_cases h4 : boundaryBetween ((nm.getLast?).orElse fun _ => some ' ')
      (((((s.drop 6).drop (takeWhileLen isSpaceChar (s.drop 6))).drop
            kw.length).drop
          (takeWhileLen isSpaceChar
            (((s.drop 6).drop (takeWhileLen isSpaceChar (s.drop 6))).drop
              kw.length))).drop
        nm.length).head? = true
  case neg => rw [if_neg h4] at h; cases h
  rw [if_pos h4] at h
  obtain ⟨hlen, hidr⟩ := Prod.mk.injEq _ _ _ _ ▸ Option.some.inj h
  set s1 := s.drop 6 with hs1
  set w1 := takeWhileLen isSpaceChar s1 with hw1
  set s2 := s1.drop w1 with hs2
  set s3 := s2.drop kw.length with hs3
  set w2 := takeWhileLen isSpaceChar s3 with hw2
  set s4 := s3.drop w2 with hs4
  obtain ⟨hkws, hkwtake, hkwle⟩ := matchKeywordAt_spec _ _ hk
  refine ⟨s1.takeWhile isSpaceChar, kw, s3.takeWhile isSpaceChar,
    ?_, ?_, ?_, ?_, ?_, hkws, ?_, ?_, ?_⟩
  · rw [← hlen]
    have e1 : s.take (6 + (w1 + (kw.length + (w2 + nm.length)))) =
        s.take 6 ++ s1.take (w1 + (kw.length + (w2 + nm.length))) := by
      rw [List.take_add]
    have e2 : s1.take (w1 + (kw.length + (w2 + nm.length))) =
        s1.take w1 ++ s2.take (kw.length + (w2 + nm.length)) := by
      rw [List.take_add]
    have e3 : s2.take (kw.length + (w2 + nm.length)) =
        s2.take kw.length ++ s3.take (w2 + nm.length) := by
      rw [List.take_add]
    have e4 : s3.take (w2 + nm.length) = s3.take w2 ++ s4.take nm.length := by
      rw [List.take_add]
    have hexp : s.take 6 = "export".toList := take_of_isPrefixOf _ _ h0
    have hsp1 : s1.take w1 = s1.takeWhile isSpaceChar := takeWhile_take _ _
    have hsp2 : s3.take w2 = s3.takeWhile isSpaceChar := takeWhile_take _ _
    have hnm : s4.take nm.length = nm := take_of_isPrefixOf _ _ h3
    have harith : 6 + w1 + kw.length + w2 + nm.length =
        6 + (w1 + (kw.length + (w2 + nm.length))) := by omega
    rw [harith, e1, e2, e3, e4, hexp, hsp1, hsp2, hkwtake, hnm]
    simp [List.append_assoc]
  · intro hcon
    apply h1
    rw [hw1]
    unfold takeWhileLen
    rw [hcon]
    rfl
  · intro hcon
    apply h2
    rw [hw2]
    unfold takeWhileLen
    rw [hcon]
    rfl
  · intro c hc
    exact List.mem_takeWhile_imp hc
  · intro c hc
    exact List.mem_takeWhile_imp hc
  · rw [← hidr, hw1, hw2]
    unfold takeWhileLen
    rfl
  · omega
  · have l1 : 6 ≤ s.length := length_le_of_isPrefixOf _ _ h0
    have l2 : w1 ≤ s1.length := takeWhileLen_le _ _
    have l3 : w2 ≤ s3.length := takeWhileLen_le _ _
    have l4 : nm.length ≤ s4.length := length_le_of_isPrefixOf _ _ h3
    have d1 : s1.length = s.length - 6 := by rw [hs1, List.length_drop]
    have d2 : s2.length = s1.length - w1 := by rw [hs2, List.length_drop]
    have d3 : s3.length = s2.length - kw.length := by
      rw [hs3, List.length_drop]
    have d4 : s4.length = s3.length - w2 := by rw [hs4, List.length_drop]
    omega

/-! ## The `indexOf` of `findStoreDefinitions` finds the identifier -/

theorem occ_word_at (mstr nm : List Char) (d : Nat)
    (hident : isIdentChars nm = true) (hocc : nm <+: mstr.drop d) :
    ∀ j, j < nm.length → ∃ c, mstr[d + j]? = some c ∧ isWordChar c = true := by
  intro j hj
  obtain ⟨t, ht⟩ := hocc
  refine ⟨nm[j], ?_, ?_⟩
  · rw [← List.getElem?_drop, ← ht,
      List.getElem?_append_left hj, List.getElem?_eq_getElem hj]
  · unfold isIdentChars at hident
    simp only [Bool.and_eq_true] at hident
    exact List.all_eq_true.mp hident.2 _ (List.getElem_mem hj)

theorem firstIdx_at_ident (sp1 kw sp2 nm : List Char)
    (hident : isIdentChars nm = true)
    (hsp1 : ∀ c ∈ sp1, isSpaceChar c = true) (hne1 : sp1 ≠ [])
    (hsp2 : ∀ c ∈ sp2, isSpaceChar c = true) (hne2 : sp2 ≠ [])
    (hnoexp : containsChars "export".toList nm = false)
    (hnokw : containsChars kw nm = false) :
    firstIdx nm ("export".toList ++ sp1 ++ kw ++ sp2 ++ nm) =
      some (6 + sp1.length + kw.length + sp2.length) := by
  simp only [List.append_assoc]
  set E := "export".toList with hE
  set mstr := E ++ (sp1 ++ (kw ++ (sp2 ++ nm))) with hmstr
  set idr := 6 + sp1.length + kw.length + sp2.length with hidr
  have hElen : E.length = 6 := rfl
  have hnm1 : 1 ≤ nm.length := by
    unfold isIdentChars at hident
    simp only [Bool.and_eq_true, decide_eq_true_eq] at hident
    cases nm with
    | nil => exact absurd rfl hident.1
    | cons a l => simp
  have hdropidr : mstr.drop idr = nm := by
    rw [hmstr, hidr]
    have e1 : 6 + sp1.length + kw.length + sp2.length =
        E.length + (sp1.length + (kw.length + (sp2.length + 0))) := by
      rw [hElen]; omega
    rw [e1, List.drop_append, List.drop_append, List.drop_append,
      List.drop_append, List.drop_zero]
  have hoccidr : nm <+: mstr.drop idr := by rw [hdropidr]
  have hsome := firstIdx_complete nm mstr idr hoccidr
  cases hfi : firstIdx nm mstr with
  | none => rw [hfi] at hsome; cases hsome
  | some d =>
  have hsound := firstIdx_sound nm mstr d hfi
  have hmin := firstIdx_minimal nm mstr d hfi
  have hdle : d ≤ idr := by
    by_contra hlt
    exact hmin idr (by omega) hoccidr
  rcases Nat.eq_or_lt_of_le hdle with he | hlt
  · rw [he]
  exfalso
  have hword := occ_word_at mstr nm d hident hsound
  have hspace : ∀ p, ((6 ≤ p ∧ p < 6 + sp1.length) ∨
      (6 + sp1.length + kw.length ≤ p ∧ p < idr)) →
      ∃ c, mstr[p]? = some c ∧ isSpaceChar c = true := by
    intro p hp
    rcases hp with ⟨hp1, hp2⟩ | ⟨hp1, hp2⟩
    · have h6 : E.length ≤ p := by rw [hElen]; omega
      have hlt1 : p - 6 < sp1.length := by omega
      refine ⟨sp1[p - 6], ?_, hsp1 _ (List.getElem_mem hlt1)⟩
      rw [hmstr, List.getElem?_append_right h6, hElen,
        List.getElem?_append_left hlt1, List.getElem?_eq_getElem hlt1]
    · have h1 : E.length ≤ p := by rw [hElen]; omega
      have h2 : sp1.length ≤ p - 6 := by omega
      have h3 : kw.length ≤ p - 6 - sp1.length := by omega
      have hlt2 : p - 6 - sp1.length - kw.length < sp2.length := by
        rw [hidr] at hp2; omega
      refine ⟨sp2[p - 6 - sp1.length - kw.length], ?_,
        hsp2 _ (List.getElem_mem hlt2)⟩
      rw [hmstr, List.getElem?_append_right h1, hElen,
        List.getElem?_append_right h2, List.getElem?_append_right h3,
        List.getElem?_append_left hlt2, List.getElem?_eq_getElem hlt2]
  have hcontra : ∀ p j, j < nm.length → p = d + j →
      ((6 ≤ p ∧ p < 6 + sp1.length) ∨
        (6 + sp1.length + kw.length ≤ p ∧ p < idr)) → False := by
    intro p j hj hpd hreg
    obtain ⟨c1, hg1, hw1⟩ := hword j hj
    obtain ⟨c2, hg2, hs2w⟩ := hspace p hreg
    rw [hpd] at hg2
    rw [hg1] at hg2
    cases hg2
    rw [space_not_word c1 hs2w] at hw1
    cases hw1
  have hsp1len : 1 ≤ sp1.length := by
    cases sp1 with
    | nil => exact absurd rfl hne1
    | cons a l => simp
  have hsp2len : 1 ≤ sp2.length := by
    cases sp2 with
    | nil => exact absurd rfl hne2
    | cons a l => simp
  rw [hidr] at hlt
  by_cases hA : d + nm.length ≤ 6
  · -- the occurrence lies inside `export`
    have hd6 : d ≤ E.length := by rw [hElen]; omega
    have hsplit : mstr.drop d = E.drop d ++ (sp1 ++ (kw ++ (sp2 ++ nm))) := by
      rw [hmstr, List.drop_append_of_le_length hd6]
    have hocc2 : nm <+: E.drop d := by
      refine prefix_of_append_left _ _ _ (hsplit ▸ hsound) ?_
      rw [List.length_drop, hElen]
      omega
    have hiscmpl := firstIdx_complete nm E d hocc2
    unfold containsChars at hnoexp
    rw [hnoexp] at hiscmpl
    simp at hiscmpl
  by_cases hB : d < 6
  · exact hcontra 6 (6 - d) (by omega) (by omega) (Or.inl (by omega))
  by_cases hC : d < 6 + sp1.length
  · exact hcontra d 0 (by omega) (by omega) (Or.inl (by omega))
  by_cases hD : d + nm.length ≤ 6 + sp1.length + kw.length
  · -- the occurrence lies inside the keyword
    have hk : d - 6 - sp1.length ≤ kw.length := by omega
    have e1 : mstr = (E ++ sp1) ++ (kw ++ (sp2 ++ nm)) :=
      (List.append_assoc E sp1 (kw ++ (sp2 ++ nm))).symm
    have e2 : d = (E ++ sp1).length + (d - 6 - sp1.length) := by
      rw [List.length_append, hElen]; omega
    have hsplit : mstr.drop d =
        kw.drop (d - 6 - sp1.length) ++ (sp2 ++ nm) := by
      conv_lhs => rw [e1, e2, List.drop_append]
      rw [List.drop_append_of_le_length hk]
    have hocc2 : nm <+: kw.drop (d - 6 - sp1.length) := by
      refine prefix_of_append_left _ _ _ (hsplit ▸ hsound) ?_
      rw [List.length_drop]
      omega
    have hiscmpl := firstIdx_complete nm kw _ hocc2
    unfold containsChars at hnokw
    rw [hnokw] at hiscmpl
    simp at hiscmpl
  by_cases hEE : d < 6 + sp1.length + kw.length
  · exact hcontra (6 + sp1.length + kw.length)
      (6 + sp1.length + kw.length - d) (by omega) (by omega)
      (Or.inr (by constructor <;> omega))
  · exact hcontra d 0 (by omega) (by omega) (Or.inr (by constructor <;> omega))

/-! ## Exhaustiveness of the definition scan (C2) -/

theorem defMatchAt_nil (nm : List Char) : defMatchAt [] nm = none := rfl

theorem defScanNoOverlap_spec (text nm : List Char)
    (h : defScanNoOverlap text nm = true) (i len idr : Nat)
    (hm : defMatchAt (text.drop i) nm = some (len, idr)) :
    ∀ j, i < j → j < i + len → defMatchAt (text.drop j) nm = none := by
  intro j hij hjlen
  have hi : i < text.length := by
    by_contra hge
    rw [List.drop_eq_nil_of_le (by omega), defMatchAt_nil] at hm
    cases hm
  unfold defScanNoOverlap at h
  have h2 := List.all_eq_true.mp h i (List.mem_range.mpr hi)
  rw [hm] at h2
  have h3 := List.all_eq_true.mp h2 j
    (List.mem_range'_1.mpr ⟨by omega, by omega⟩)
  cases hdj : defMatchAt (text.drop j) nm with
  | none => rfl
  | some v => rw [hdj] at h3; cases h3

theorem scanDefsAux_eq (nm text : List Char)
    (hno : ∀ i len idr, defMatchAt (text.drop i) nm = some (len, idr) →
      ∀ j, i < j → j < i + len → defMatchAt (text.drop j) nm = none) :
    ∀ (s : List Char) (k skip : Nat), s = text.drop k →
      (∀ j, k ≤ j → j < k + skip → defMatchAt (text.drop j) nm = none) →
      scanDefsAux nm s k skip =
        (List.range' k (text.length - k)).filterMap (fun i =>
          (defMatchAt (text.drop i) nm).map (fun pr =>
            ({ pos := i, mstr := (text.drop i).take pr.1,
               identRel := pr.2 } : DefMatch))) := by
  intro s
  induction s with
  | nil =>
    intro k skip hs _hsk
    have hlen : text.length - k = 0 := by
      have hl := congrArg List.length hs
      simp [List.length_drop] at hl
      omega
    rw [hlen]
    rfl
  | cons c rest ih =>
    intro k skip hs hsk
    have hlen : text.length - k = (text.length - (k + 1)) + 1 := by
      have hl := congrArg List.length hs
      simp [List.length_drop] at hl
      omega
    have hrest : rest = text.drop (k + 1) := by
      have h1 := List.tail_drop text k
      rw [← hs] at h1
      exact h1
    rw [hlen, List.range'_succ]
    by_cases hskip : skip > 0
    · have hcur : defMatchAt (text.drop k) nm = none :=
        hsk k le_rfl (by omega)
      rw [List.filterMap_cons_none (by rw [hcur]; rfl)]
      rw [scanDefsAux]
      rw [if_pos hskip]
      exact ih (k + 1) (skip - 1) hrest
        (fun j hj1 hj2 => hsk j (by omega) (by omega))
    · rw [scanDefsAux]
      rw [if_neg hskip]
      cases hm : defMatchAt (c :: rest) nm with
      | none =>
        have hm2 : defMatchAt (text.drop k) nm = none := by
          rw [← hs]; exact hm
        rw [List.filterMap_cons_none (by rw [hm2]; rfl)]
        exact ih (k + 1) 0 hrest
          (fun j hj1 hj2 => absurd hj2 (by omega))
      | some pr =>
        obtain ⟨len, idr⟩ := pr
        have hm2 : defMatchAt (text.drop k) nm = some (len, idr) := by
          rw [← hs]; exact hm
        have htake : (text.drop k).take len = (c :: rest).take len := by
          rw [← hs]
        have hFk : Option.map (fun pr =>
            ({ pos := k, mstr := (text.drop k).take pr.1,
               identRel := pr.2 } : DefMatch))
            (defMatchAt (text.drop k) nm) =
            some { pos := k, mstr := (c :: rest).take len,
                   identRel := idr } := by
          rw [hm2, Option.map_some', htake]
        have hsk2 : ∀ j, k + 1 ≤ j → j < k + 1 + (len - 1) →
            defMatchAt (text.drop j) nm = none := fun j hj1 hj2 =>
          hno k len idr hm2 j (by omega) (by omega)
        show ({ pos := k, mstr := (c :: rest).take len,
                identRel := idr } : DefMatch) ::
            scanDefsAux nm rest (k + 1) (len - 1) = _
        rw [ih (k + 1) (len - 1) hrest hsk2]
        refine (List.filterMap_cons_some ?_).symm
        exact hFk

theorem storeDefinitionSpans_exact (text nm : List Char)
    (hident : isIdentChars nm = true)
    (hnoexp : containsChars "export".toList nm = false)
    (hnoconst : containsChars "const".toList nm = false)
    (hnolet : containsChars "let".toList nm = false)
    (hnovar : containsChars "var".toList nm = false)
    (hno : defScanNoOverlap text nm = true) :
    storeDefinitionSpans text nm =
      (List.range text.length).filterMap (fun i =>
        (defMatchAt (text.drop i) nm).map (fun pr =>
          (i + pr.2, i + pr.2 + nm.length))) := by
  unfold storeDefinitionSpans scanDefs
  rw [scanDefsAux_eq nm text (defScanNoOverlap_spec text nm hno) text 0 0
    (List.drop_zero text).symm (fun j hj1 hj2 => absurd hj2 (by omega))]
  rw [List.range_eq_range', Nat.sub_zero, List.map_filterMap]
  apply List.filterMap_congr
  intro i _hi
  cases hm : defMatchAt (text.drop i) nm with
  | none => rfl
  | some pr =>
    obtain ⟨len, idr⟩ := pr
    simp only [Option.map_some']
    obtain ⟨sp1, kw, sp2, hmstr, hne1, hne2, hsp1, hsp2, hkws, hidr, hlen,
      _hle⟩ := defMatchAt_spec _ _ _ _ hm
    have hfi : firstIdx nm ((text.drop i).take len) = some idr := by
      rw [hmstr, hidr]
      rcases hkws with he | he | he <;> subst he
      · exact firstIdx_at_ident sp1 _ sp2 nm hident hsp1 hne1 hsp2 hne2
          hnoexp hnoconst
      · exact firstIdx_at_ident sp1 _ sp2 nm hident hsp1 hne1 hsp2 hne2
          hnoexp hnolet
      · exact firstIdx_at_ident sp1 _ sp2 nm hident hsp1 hne1 hsp2 hne2
          hnoexp hnovar
    rw [hfi]

/-- C2: for a readable store file, `findStoreDefinitions` returns one
`Location` per position of the text at which the pattern
`export\s+(const|let|var)\s+(NAME)\b` matches — all such occurrences, none
omitted (exhaustiveness holds under the side condition that no match begins
strictly inside another, which is what the resuming `exec` loop skips) —
and each returned `Location` spans exactly the identifier token `NAME` of
its declaration, provided the name does not itself occur inside the
preceding `export`/`const`/`let`/`var` keywords (otherwise the span is
misplaced by the `indexOf` — see the counterexample). -/
theorem findStoreDefinitions_exact (env : Env) (st st1 : TrackerState)
    (storeFilePath storeName text : String)
    (hget : getDocumentText env st storeFilePath = (some text, st1))
    (hident : isIdentChars storeName.toList = true)
    (hnoexp : containsChars "export".toList storeName.toList = false)
    (hnoconst : containsChars "const".toList storeName.toList = false)
    (hnolet : containsChars "let".toList storeName.toList = false)
    (hnovar : containsChars "var".toList storeName.toList = false)
    (hno : defScanNoOverlap text.toList storeName.toList = true) :
    (findStoreDefinitions env st storeFilePath storeName).1 =
      (List.range text.toList.length).filterMap (fun i =>
        (defMatchAt (text.toList.drop i) storeName.toList).map (fun pr =>
          { uri := storeFilePath
            rangeStart := getPositionFromOffset text.toList (i + pr.2)
            rangeEnd := getPositionFromOffset text.toList
              (i + pr.2 + storeName.toList.length) })) := by
  unfold findStoreDefinitions
  rw [hget]
  by_cases he : text = ""
  · subst he
    rfl
  · dsimp only
    rw [if_neg he]
    rw [storeDefinitionSpans_exact text.toList storeName.toList hident
      hnoexp hnoconst hnolet hnovar hno]
    rw [List.map_filterMap]
    apply List.filterMap_congr
    intro i _hi
    cases hm : defMatchAt (text.toList.drop i) storeName.toList with
    | none => rfl
    | some pr => rfl

/-- The span returned for name `ar` in `export var ar = 1` starts at offset
8, inside the keyword `var` (the characters at offsets 8-9 are `ar`), while
the identifier token `ar` of the declaration is at offsets 11-13. -/
theorem findStoreDefinitions_keyword_span :
    (findStoreDefinitions envC2b initState "/s/ar.store.ts" "ar").1 =
      [{ uri := "/s/ar.store.ts"
         rangeStart := { line := 0, character := 8 }
         rangeEnd := { line := 0, character := 10 } }] ∧
    ("export var ar = 1".toList.drop 8).take 2 = "ar".toList ∧
    ("export var ar = 1".toList.drop 11).take 2 = "ar".toList ∧
    defMatchAt "export var ar = 1".toList "ar".toList = some (13, 11) := by
  decide

theorem findStoreDefinitions_exact_witness :
    (findStoreDefinitions envC2 initState "/s/c.store.ts" "count").1 =
      (List.range "export const count = 1".toList.length).filterMap (fun i =>
        (defMatchAt ("export const count = 1".toList.drop i)
            "count".toList).map (fun pr =>
          { uri := "/s/c.store.ts"
            rangeStart := getPositionFromOffset
              "export const count = 1".toList (i + pr.2)
            rangeEnd := getPositionFromOffset
              "export const count = 1".toList
              (i + pr.2 + "count".toList.length) })) :=
  findStoreDefinitions_exact envC2 initState
    { initState with
      fileCache := [("/s/c.store.ts", "export const count = 1")] }
    "/s/c.store.ts" "count" "export const count = 1"
    (by decide) (by decide) (by decide) (by decide) (by decide) (by decide)
    (by decide)

/-! ## Distinctness of positions at distinct offsets (C4)

`getPositionFromOffset` is injective on offsets that point at a
non-line-terminator character: extending the prefix past such a character
strictly increases the (line, character) pair lexicographically. -/

theorem splitLines_crlf (r : List Char) :
    splitLines ('\r' :: '\n' :: r) = [] :: splitLines r := rfl

theorem splitLines_lf (r : List Char) :
    splitLines ('\n' :: r) = [] :: splitLines r := by
  conv_lhs => unfold splitLines
  rw [if_neg (by decide), if_pos rfl]

theorem splitLines_cr_nil : splitLines ['\r'] = [[], []] := rfl

theorem splitLines_ne_nil (s : List Char) : splitLines s ≠ [] := by
  induction s with
  | nil => simp [splitLines]
  | cons c rest ih =>
    unfold splitLines
    by_cases h1 : c = '\r'
    · rw [if_pos h1]
      split <;> simp
    · rw [if_neg h1]
      by_cases h2 : c = '\n'
      · rw [if_pos h2]; simp
      · rw [if_neg h2]
        split <;> simp

theorem splitLines_cr_cons (d : Char) (r : List Char) (hd : d ≠ '\n') :
    splitLines ('\r' :: d :: r) = [] :: splitLines (d :: r) := by
  conv_lhs => unfold splitLines
  rw [if_pos rfl]
  split
  · rename_i r2 heq
    injection heq with e1 e2
    exact absurd e1 hd
  · rename_i heq
    cases heq
  · rename_i d2 r2 hno heq
    injection heq with e1 e2
    subst e1
    subst e2
    rfl

theorem splitLines_other (c : Char) (r : List Char) (h1 : c ≠ '\r')
    (h2 : c ≠ '\n') :
    splitLines (c :: r) =
      match splitLines r with
      | [] => [[c]]
      | l :: ls => (c :: l) :: ls := by
  conv_lhs => unfold splitLines
  rw [if_neg h1, if_neg h2]

theorem newline_false_elim (c : Char) (hc : isNewlineChar c = false) :
    c ≠ '\r' ∧ c ≠ '\n' := by
  unfold isNewlineChar at hc
  simp only [Bool.or_eq_false_iff, decide_eq_false_iff_not] at hc
  exact ⟨hc.2, hc.1⟩

theorem getLastD_cons_of_ne_nil {α : Type} (a : α) (l : List α) (h : l ≠ []) :
    (a :: l).getLast? = l.getLast? := by
  cases l with
  | nil => exact absurd rfl h
  | cons x xs => exact List.getLast?_cons_cons

theorem splitLines_length_pos (s : List Char) : 1 ≤ (splitLines s).length := by
  cases hsp : splitLines s with
  | nil => exact absurd hsp (splitLines_ne_nil s)
  | cons a l => simp

theorem splitLines_single_line (c : Char) (v : List Char) (h1 : c ≠ '\r')
    (h2 : c ≠ '\n') :
    1 < (splitLines (c :: v)).length ∨
      ((splitLines (c :: v)).length = 1 ∧
        0 < (((splitLines (c :: v)).getLast?).getD []).length) := by
  rw [splitLines_other c v h1 h2]
  cases hv : splitLines v with
  | nil => exact absurd hv (splitLines_ne_nil v)
  | cons l ls =>
    cases ls with
    | nil => right; simp
    | cons l2 ls2 => left; simp

theorem splitLines_extend (c : Char) (h1 : c ≠ '\r') (h2 : c ≠ '\n')
    (v : List Char) :
    ∀ (n : Nat) (u : List Char), u.length ≤ n →
      (splitLines u).length < (splitLines (u ++ c :: v)).length ∨
        ((splitLines u).length = (splitLines (u ++ c :: v)).length ∧
          (((splitLines u).getLast?).getD []).length <
            (((splitLines (u ++ c :: v)).getLast?).getD []).length) := by
  intro n
  induction n with
  | zero =>
    intro u hu
    have hu0 : u = [] := List.eq_nil_of_length_eq_zero (by omega)
    subst hu0
    rw [List.nil_append]
    rcases splitLines_single_line c v h1 h2 with h | ⟨hl, hc0⟩
    · left; simpa [splitLines] using h
    · right
      exact ⟨by simp [splitLines, hl], by simpa [splitLines] using hc0⟩
  | succ n ih =>
    intro u hu
    cases u with
    | nil =>
      rw [List.nil_append]
      rcases splitLines_single_line c v h1 h2 with h | ⟨hl, hc0⟩
      · left; simpa [splitLines] using h
      · right
        exact ⟨by simp [splitLines, hl], by simpa [splitLines] using hc0⟩
    | cons c0 u' =>
      by_cases hcr : c0 = '\r'
      · subst hcr
        cases u' with
        | nil =>
          rw [List.cons_append, List.nil_append, splitLines_cr_cons c v h2,
            splitLines_cr_nil]
          rcases splitLines_single_line c v h1 h2 with h | ⟨hl, hc0⟩
          · left
            simp only [List.length_cons, List.length_nil]
            omega
          · right
            constructor
            · simp [hl]
            · rw [getLastD_cons_of_ne_nil ([] : List Char)
                (splitLines (c :: v)) (splitLines_ne_nil _)]
              simpa using hc0
        | cons d u'' =>
          by_cases hlf : d = '\n'
          · subst hlf
            rw [List.cons_append, List.cons_append, splitLines_crlf,
              splitLines_crlf]
            have hrec := ih u''
              (by simp only [List.length_cons] at hu; omega)
            rcases hrec with h | ⟨hl, hc0⟩
            · left; simpa using h
            · right
              constructor
              · simpa using hl
              · rw [getLastD_cons_of_ne_nil ([] : List Char)
                    (splitLines u'') (splitLines_ne_nil _),
                  getLastD_cons_of_ne_nil ([] : List Char)
                    (splitLines (u'' ++ c :: v)) (splitLines_ne_nil _)]
                exact hc0
          · rw [List.cons_append, List.cons_append,
              splitLines_cr_cons d u'' hlf,
              splitLines_cr_cons d (u'' ++ c :: v) hlf]
            have hrec := ih (d :: u'')
              (by simp only [List.length_cons] at hu ⊢; omega)
            rw [List.cons_append] at hrec
            rcases hrec with h | ⟨hl, hc0⟩
            · left; simpa using h
            · right
              constructor
              · simpa using hl
              · rw [getLastD_cons_of_ne_nil ([] : List Char)
                    (splitLines (d :: u'')) (splitLines_ne_nil _),
                  getLastD_cons_of_ne_nil ([] : List Char)
                    (splitLines (d :: (u'' ++ c :: v))) (splitLines_ne_nil _)]
                exact hc0
      · by_cases hlf : c0 = '\n'
        · subst hlf
          rw [List.cons_append, splitLines_lf, splitLines_lf]
          have hrec := ih u'
            (by simp only [List.length_cons] at hu; omega)
          rcases hrec with h | ⟨hl, hc0⟩
          · left; simpa using h
          · right
            constructor
            · simpa using hl
            · rw [getLastD_cons_of_ne_nil ([] : List Char)
                  (splitLines u') (splitLines_ne_nil _),
                getLastD_cons_of_ne_nil ([] : List Char)
                  (splitLines (u' ++ c :: v)) (splitLines_ne_nil _)]
              exact hc0
        · rw [List.cons_append, splitLines_other c0 u' hcr hlf,
            splitLines_other c0 (u' ++ c :: v) hcr hlf]
          have hrec := ih u'
            (by simp only [List.length_cons] at hu; omega)
          cases hsp : splitLines u' with
          | nil => exact absurd hsp (splitLines_ne_nil _)
          | cons l ls =>
          cases hsp2 : splitLines (u' ++ c :: v) with
          | nil => exact absurd hsp2 (splitLines_ne_nil _)
          | cons l2 ls2 =>
          rw [hsp, hsp2] at hrec
          dsimp only
          rcases hrec with h | ⟨hl, hc0⟩
          · left; simpa using h
          · simp only [List.length_cons] at hl
            cases ls with
            | nil =>
              have hls2 : ls2 = [] := by
                cases ls2 with
                | nil => rfl
                | cons y ys => simp at hl
              subst hls2
              right
              refine ⟨rfl, ?_⟩
              simp only [List.getLast?_singleton, Option.getD_some] at hc0 ⊢
              simp only [List.length_cons]
              omega
            | cons x xs =>
              cases ls2 with
              | nil => simp at hl
              | cons y ys =>
                right
                refine ⟨by simp only [List.length_cons] at hl ⊢; omega, ?_⟩
                rw [getLastD_cons_of_ne_nil (c0 :: l) (x :: xs) (by simp),
                  getLastD_cons_of_ne_nil (c0 :: l2) (y :: ys) (by simp)]
                rw [getLastD_cons_of_ne_nil l (x :: xs) (by simp),
                  getLastD_cons_of_ne_nil l2 (y :: ys) (by simp)] at hc0
                exact hc0

theorem getPositionFromOffset_ne (text : List Char) (p q : Nat) (hpq : p < q)
    (c : Char) (hp : text[p]? = some c) (hc : isNewlineChar c = false) :
    getPositionFromOffset text p ≠ getPositionFromOffset text q := by
  obtain ⟨h1, h2⟩ := newline_false_elim c hc
  obtain ⟨hplt, hpc⟩ := List.getElem?_eq_some.mp hp
  have hdrop : text.drop p = c :: text.drop (p + 1) := by
    rw [List.drop_eq_getElem_cons hplt, hpc]
  have htq : text.take q =
      text.take p ++ c :: ((text.drop (p + 1)).take (q - (p + 1))) := by
    have e1 : q = p + (q - p) := by omega
    have e2 : q - p = (q - (p + 1)) + 1 := by omega
    conv_lhs => rw [e1, List.take_add]
    rw [hdrop, e2, List.take_succ_cons]
  intro heq
  unfold getPositionFromOffset at heq
  rw [htq] at heq
  simp only [Pos.mk.injEq] at heq
  obtain ⟨hlines, hchars⟩ := heq
  have hext := splitLines_extend c h1 h2
    ((text.drop (p + 1)).take (q - (p + 1)))
    (text.take p).length (text.take p) le_rfl
  have hl1 := splitLines_length_pos (text.take p)
  have hl2 := splitLines_length_pos
    (text.take p ++ c :: (text.drop (p + 1)).take (q - (p + 1)))
  rcases hext with h | ⟨hl, hc2⟩
  · omega
  · omega

theorem isIdentChars_length (nm : List Char) (h : isIdentChars nm = true) :
    1 ≤ nm.length := by
  unfold isIdentChars at h
  simp only [Bool.and_eq_true, decide_eq_true_eq] at h
  cases nm with
  | nil => exact absurd rfl h.1
  | cons a l => simp

/-! ## Structure of the definition-scan output (C4) -/

theorem defMatch_firstIdx (s nm : List Char) (len idr : Nat)
    (hident : isIdentChars nm = true)
    (hm : defMatchAt s nm = some (len, idr)) :
    ∃ d, firstIdx nm (s.take len) = some d ∧ d + nm.length ≤ len ∧
      ∃ c, (s.take len)[d]? = some c ∧ isWordChar c = true := by
  obtain ⟨sp1, kw, sp2, hmstr, hne1, hne2, hsp1, hsp2, hkws, hidr, hlen,
    hle⟩ := defMatchAt_spec s nm len idr hm
  have hnm1 := isIdentChars_length nm hident
  have hdrop : (s.take len).drop idr = nm := by
    rw [hmstr]
    simp only [List.append_assoc]
    rw [hidr]
    have hElen : ("export".toList).length = 6 := rfl
    have e1 : 6 + sp1.length + kw.length + sp2.length =
        ("export".toList).length +
          (sp1.length + (kw.length + (sp2.length + 0))) := by
      rw [hElen]; omega
    rw [e1, List.drop_append, List.drop_append, List.drop_append,
      List.drop_append, List.drop_zero]
  have hocc : nm <+: (s.take len).drop idr := by rw [hdrop]
  have hsome := firstIdx_complete nm (s.take len) idr hocc
  cases hfi : firstIdx nm (s.take len) with
  | none => rw [hfi] at hsome; cases hsome
  | some d =>
  have hsound := firstIdx_sound nm (s.take len) d hfi
  have hlentake : (s.take len).length = len := by
    rw [List.length_take]
    exact min_eq_left hle
  have hdlen : d + nm.length ≤ len := by
    have hlen2 := hsound.length_le
    rw [List.length_drop, hlentake] at hlen2
    omega
  obtain ⟨c, hc, hw⟩ := occ_word_at (s.take len) nm d hident hsound 0 hnm1
  refine ⟨d, rfl, hdlen, c, ?_, hw⟩
  simpa using hc

theorem scanDefsAux_pos_ge (nm : List Char) :
    ∀ (s : List Char) (k skip : Nat) (m : DefMatch),
      m ∈ scanDefsAux nm s k skip → k + skip ≤ m.pos := by
  intro s
  induction s with
  | nil => intro k skip m hm; simp [scanDefsAux] at hm
  | cons c rest ih =>
    intro k skip m hm
    rw [scanDefsAux] at hm
    by_cases hskip : skip > 0
    · rw [if_pos hskip] at hm
      have := ih (k + 1) (skip - 1) m hm
      omega
    · rw [if_neg hskip] at hm
      cases hdm : defMatchAt (c :: rest) nm with
      | none =>
        rw [hdm] at hm
        have := ih (k + 1) 0 m hm
        omega
      | some pr =>
        rw [hdm] at hm
        obtain ⟨len, idr⟩ := pr
        simp only [List.mem_cons] at hm
        rcases hm with rfl | hm
        · dsimp only
          omega
        · have := ih (k + 1) (len - 1) m hm
          omega

theorem scanDefsAux_mem (nm text : List Char) :
    ∀ (s : List Char) (k skip : Nat), s = text.drop k →
      ∀ m ∈ scanDefsAux nm s k skip, ∃ len idr,
        defMatchAt (text.drop m.pos) nm = some (len, idr) ∧
        m.mstr = (text.drop m.pos).take len ∧ m.identRel = idr := by
  intro s
  induction s with
  | nil => intro k skip _hs m hm; simp [scanDefsAux] at hm
  | cons c rest ih =>
    intro k skip hs m hm
    have hrest : rest = text.drop (k + 1) := by
      have h1 := List.tail_drop text k
      rw [← hs] at h1
      exact h1
    rw [scanDefsAux] at hm
    by_cases hskip : skip > 0
    · rw [if_pos hskip] at hm
      exact ih (k + 1) (skip - 1) hrest m hm
    · rw [if_neg hskip] at hm
      cases hdm : defMatchAt (c :: rest) nm with
      | none =>
        rw [hdm] at hm
        exact ih (k + 1) 0 hrest m hm
      | some pr =>
        rw [hdm] at hm
        obtain ⟨len, idr⟩ := pr
        simp only [List.mem_cons] at hm
        rcases hm with rfl | hm
        · dsimp only
          refine ⟨len, idr, ?_, ?_, rfl⟩
          · rw [← hs]
            exact hdm
          · rw [← hs]
        · exact ih (k + 1) (len - 1) hrest m hm

theorem scanDefsAux_span_pairwise (nm : List Char)
    (hident : isIdentChars nm = true) :
    ∀ (s : List Char) (k skip : Nat),
      List.Pairwise (fun m1 m2 =>
        (match firstIdx nm m1.mstr with
         | some d => m1.pos + d
         | none => m1.pos) <
        (match firstIdx nm m2.mstr with
         | some d => m2.pos + d
         | none => m2.pos)) (scanDefsAux nm s k skip) := by
  intro s
  induction s with
  | nil => intro k skip; simp [scanDefsAux]
  | cons c rest ih =>
    intro k skip
    rw [scanDefsAux]
    by_cases hskip : skip > 0
    · rw [if_pos hskip]
      exact ih (k + 1) (skip - 1)
    · rw [if_neg hskip]
      cases hdm : defMatchAt (c :: rest) nm with
      | none => exact ih (k + 1) 0
      | some pr =>
        obtain ⟨len, idr⟩ := pr
        show List.Pairwise _
          (({ pos := k, mstr := (c :: rest).take len,
              identRel := idr } : DefMatch) ::
            scanDefsAux nm rest (k + 1) (len - 1))
        refine List.Pairwise.cons ?_ (ih (k + 1) (len - 1))
        intro m hm
        obtain ⟨d, hfi, hdlen, c2, hc2, hw2⟩ :=
          defMatch_firstIdx (c :: rest) nm len idr hident hdm
        have hge := scanDefsAux_pos_ge nm rest (k + 1) (len - 1) m hm
        have hnm1 := isIdentChars_length nm hident
        dsimp only
        rw [hfi]
        cases hfim : firstIdx nm m.mstr with
        | none =>
          show k + d < m.pos
          omega
        | some d2 =>
          show k + d < m.pos + d2
          omega

theorem storeDefinitionSpans_pairwise (text nm : List Char)
    (hident : isIdentChars nm = true) :
    List.Pairwise (fun a b => a.1 < b.1) (storeDefinitionSpans text nm) ∧
    ∀ sp ∈ storeDefinitionSpans text nm,
      ∃ c, text[sp.1]? = some c ∧ isWordChar c = true := by
  unfold storeDefinitionSpans scanDefs
  constructor
  · rw [List.pairwise_map]
    refine List.Pairwise.imp_of_mem ?_
      (scanDefsAux_span_pairwise nm hident text 0 0)
    intro m1 m2 _hm1 _hm2 hlt
    dsimp only
    cases h1 : firstIdx nm m1.mstr with
    | none =>
      rw [h1] at hlt
      cases h2 : firstIdx nm m2.mstr with
      | none => rw [h2] at hlt; exact hlt
      | some d2 => rw [h2] at hlt; exact hlt
    | some d1 =>
      rw [h1] at hlt
      cases h2 : firstIdx nm m2.mstr with
      | none => rw [h2] at hlt; exact hlt
      | some d2 => rw [h2] at hlt; exact hlt
  · intro sp hsp
    simp only [List.mem_map] at hsp
    obtain ⟨m, hm, rfl⟩ := hsp
    obtain ⟨len, idr, hdm, hmstr, _⟩ := scanDefsAux_mem nm text text 0 0
      (List.drop_zero text).symm m hm
    obtain ⟨d, hfi, hdlen, c, hc, hw⟩ :=
      defMatch_firstIdx (text.drop m.pos) nm len idr hident hdm
    have hnm1 := isIdentChars_length nm hident
    have hc2 : text[m.pos + d]? = some c := by
      rw [List.getElem?_take, if_pos (by omega), List.getElem?_drop] at hc
      exact hc
    refine ⟨c, ?_, hw⟩
    dsimp only
    rw [hmstr, hfi]
    exact hc2

theorem findStoreDefinitions_locs (env : Env) (st : TrackerState)
    (sf nm : String) (hident : isIdentChars nm.toList = true) :
    List.Pairwise (fun a b => ¬(a.uri = b.uri ∧ a.rangeStart = b.rangeStart))
      (findStoreDefinitions env st sf nm).1 ∧
    ∀ l ∈ (findStoreDefinitions env st sf nm).1, l.uri = sf := by
  unfold findStoreDefinitions
  rcases hgt : getDocumentText env st sf with ⟨r, st1⟩
  cases r with
  | none =>
    constructor
    · exact List.Pairwise.nil
    · intro l hl
      exact absurd hl (List.not_mem_nil l)
  | some text =>
    dsimp only
    by_cases he : text = ""
    · rw [if_pos he]
      constructor
      · exact List.Pairwise.nil
      · intro l hl
        exact absurd hl (List.not_mem_nil l)
    · rw [if_neg he]
      obtain ⟨hpw, hword⟩ :=
        storeDefinitionSpans_pairwise text.toList nm.toList hident
      constructor
      · rw [List.pairwise_map]
        refine List.Pairwise.imp_of_mem ?_ hpw
        intro sp1 sp2 hsp1 _hsp2 hlt hcon
        obtain ⟨_hu, hpos⟩ := hcon
        obtain ⟨c, hc, hw⟩ := hword sp1 hsp1
        exact getPositionFromOffset_ne text.toList sp1.1 sp2.1 hlt c hc
          (word_not_newline c hw) hpos
      · intro l hl
        simp only [List.mem_map] at hl
        obtain ⟨sp, _, rfl⟩ := hl
        rfl

/-! ## The shared `visited` deduplication (C4) -/

theorem emitFold_acc {α : Type} (uri : String) (f : α → Option (Pos × Pos)) :
    ∀ (items : List α) (A : List Loc) (V : List String),
      items.foldl (fun acc x =>
        match f x with
        | none => acc
        | some pp => pushLoc uri pp acc) (A, V) =
      (A ++ (emitFold uri f items V).1, (emitFold uri f items V).2) := by
  intro items
  induction items with
  | nil =>
    intro A V
    simp [emitFold]
  | cons x rest ih =>
    intro A V
    rw [List.foldl_cons]
    conv_rhs => unfold emitFold
    rw [List.foldl_cons]
    cases hfx : f x with
    | none =>
      dsimp only
      conv_lhs => rw [ih]
      rfl
    | some pp =>
      dsimp only
      by_cases hk : dedupKey uri pp.1 ∈ V
      · have hinit : pushLoc uri pp (A, V) = (A, V) := by
          unfold pushLoc
          dsimp only
          rw [if_pos hk]
        have hinit2 : pushLoc uri pp ([], V) = ([], V) := by
          unfold pushLoc
          dsimp only
          rw [if_pos hk]
        rw [hinit, hinit2]
        conv_lhs => rw [ih]
        rfl
      · have hinit : pushLoc uri pp (A, V) =
            (A ++ [{ uri := uri, rangeStart := pp.1, rangeEnd := pp.2 }],
             dedupKey uri pp.1 :: V) := by
          unfold pushLoc
          dsimp only
          rw [if_neg hk]
        have hinit2 : pushLoc uri pp ([], V) =
            ([{ uri := uri, rangeStart := pp.1, rangeEnd := pp.2 }],
             dedupKey uri pp.1 :: V) := by
          unfold pushLoc
          dsimp only
          rw [if_neg hk]
          simp
        rw [hinit, hinit2, ih, ih]
        simp [List.append_assoc]

theorem emitFold_inv {α : Type} (uri : String) (f : α → Option (Pos × Pos)) :
    ∀ (items : List α) (vis : List String),
      (∀ k, k ∈ vis → k ∈ (emitFold uri f items vis).2) ∧
      (∀ l, l ∈ (emitFold uri f items vis).1 → l.uri = uri ∧
        dedupKey uri l.rangeStart ∈ (emitFold uri f items vis).2 ∧
        dedupKey uri l.rangeStart ∉ vis) ∧
      List.Pairwise (fun a b =>
        dedupKey uri a.rangeStart ≠ dedupKey uri b.rangeStart)
        (emitFold uri f items vis).1 := by
  intro items
  induction items with
  | nil =>
    intro vis
    exact ⟨fun k hk => hk, fun l hl => absurd hl (List.not_mem_nil l),
      List.Pairwise.nil⟩
  | cons x rest ih =>
    intro vis
    cases hfx : f x with
    | none =>
      have he : emitFold uri f (x :: rest) vis = emitFold uri f rest vis := by
        unfold emitFold
        rw [List.foldl_cons]
        rw [hfx]
      rw [he]
      exact ih vis
    | some pp =>
      by_cases hk : dedupKey uri pp.1 ∈ vis
      · have he : emitFold uri f (x :: rest) vis = emitFold uri f rest vis := by
          unfold emitFold
          rw [List.foldl_cons]
          rw [hfx]
          dsimp only
          have hinit : pushLoc uri pp ([], vis) = ([], vis) := by
            unfold pushLoc
            dsimp only
            rw [if_pos hk]
          rw [hinit]
        rw [he]
        exact ih vis
      · have he : emitFold uri f (x :: rest) vis =
            (({ uri := uri, rangeStart := pp.1, rangeEnd := pp.2 } : Loc) ::
              (emitFold uri f rest (dedupKey uri pp.1 :: vis)).1,
             (emitFold uri f rest (dedupKey uri pp.1 :: vis)).2) := by
          conv_lhs => unfold emitFold
          rw [List.foldl_cons]
          rw [hfx]
          dsimp only
          have hinit : pushLoc uri pp ([], vis) =
              ([{ uri := uri, rangeStart := pp.1, rangeEnd := pp.2 }],
               dedupKey uri pp.1 :: vis) := by
            unfold pushLoc
            dsimp only
            rw [if_neg hk]
            simp
          rw [hinit]
          rw [emitFold_acc uri f rest
            [{ uri := uri, rangeStart := pp.1, rangeEnd := pp.2 }]
            (dedupKey uri pp.1 :: vis)]
          rfl
        obtain ⟨ihm, ihl, ihp⟩ := ih (dedupKey uri pp.1 :: vis)
        rw [he]
        refine ⟨?_, ?_, ?_⟩
        · intro k hkv
          exact ihm k (List.mem_cons_of_mem _ hkv)
        · intro l hl
          rcases List.mem_cons.mp hl with rfl | hl2
          · refine ⟨rfl, ?_, ?_⟩
            · exact ihm _ (List.mem_cons_self _ _)
            · exact hk
          · obtain ⟨hu, hin, hnot⟩ := ihl l hl2
            exact ⟨hu, hin, fun hmem => hnot (List.mem_cons_of_mem _ hmem)⟩
        · refine List.Pairwise.cons ?_ ihp
          intro b2 hb2
          obtain ⟨_, _, hnot⟩ := ihl b2 hb2
          intro heq
          apply hnot
          rw [← heq]
          exact List.mem_cons_self _ _

theorem findImportReferences_inv (fileUri content storeName : String)
    (vis : List String) :
    (∀ k, k ∈ vis →
      k ∈ (findImportReferences fileUri content storeName vis).2) ∧
    (∀ l, l ∈ (findImportReferences fileUri content storeName vis).1 →
      l.uri = fileUri ∧
      dedupKey fileUri l.rangeStart ∈
        (findImportReferences fileUri content storeName vis).2 ∧
      dedupKey fileUri l.rangeStart ∉ vis) ∧
    List.Pairwise (fun a b =>
      dedupKey fileUri a.rangeStart ≠ dedupKey fileUri b.rangeStart)
      (findImportReferences fileUri content storeName vis).1 := by
  unfold findImportReferences
  exact emitFold_inv fileUri _ _ vis

theorem findThisStoreReferences_inv (fileUri content storeName : String)
    (vis : List String) :
    (∀ k, k ∈ vis →
      k ∈ (findThisStoreReferences fileUri content storeName vis).2) ∧
    (∀ l, l ∈ (findThisStoreReferences fileUri content storeName vis).1 →
      l.uri = fileUri ∧
      dedupKey fileUri l.rangeStart ∈
        (findThisStoreReferences fileUri content storeName vis).2 ∧
      dedupKey fileUri l.rangeStart ∉ vis) ∧
    List.Pairwise (fun a b =>
      dedupKey fileUri a.rangeStart ≠ dedupKey fileUri b.rangeStart)
      (findThisStoreReferences fileUri content storeName vis).1 := by
  unfold findThisStoreReferences
  exact emitFold_inv fileUri _ _ vis

theorem refsLoop_pairwise (env : Env) (sf nm : String) (files : List String)
    (st : TrackerState) (vis : List String) (acc : List Loc)
    (b : Option Nat)
    (hpw : List.Pairwise (fun a b2 =>
      ¬(a.uri = b2.uri ∧ a.rangeStart = b2.rangeStart)) acc)
    (hkey : ∀ l ∈ acc, l.uri = sf ∨ dedupKey l.uri l.rangeStart ∈ vis) :
    List.Pairwise (fun a b2 =>
      ¬(a.uri = b2.uri ∧ a.rangeStart = b2.rangeStart))
      (refsLoop env sf nm files st vis acc b).1 := by
  induction files generalizing st vis acc b with
  | nil => exact hpw
  | cons f rest ih =>
    rw [refsLoop]
    by_cases hb : b = some 0
    · rw [if_pos hb]; exact hpw
    · rw [if_neg hb]
      dsimp only
      by_cases hf : f = sf
      · rw [if_pos hf]; exact ih _ _ _ _ hpw hkey
      · rw [if_neg hf]
        rcases hgt : getDocumentText env st f with ⟨r, st1⟩
        cases r with
        | none => exact ih _ _ _ _ hpw hkey
        | some content =>
          dsimp only
          by_cases hc : content = ""
          · rw [if_pos hc]; exact ih _ _ _ _ hpw hkey
          · rw [if_neg hc]
            by_cases hh : hasImportedStore content sf nm = true
            · rw [if_pos hh]
              obtain ⟨him1, hil1, hip1⟩ :=
                findImportReferences_inv f content nm vis
              obtain ⟨him2, hil2, hip2⟩ := findThisStoreReferences_inv
                f content nm (findImportReferences f content nm vis).2
              apply ih
              · rw [List.pairwise_append]
                refine ⟨?_, ?_, ?_⟩
                · rw [List.pairwise_append]
                  refine ⟨hpw, ?_, ?_⟩
                  · refine List.Pairwise.imp_of_mem ?_ hip1
                    intro a b2 _ha _hb2 hne hcon
                    obtain ⟨_hu, hps⟩ := hcon
                    apply hne
                    rw [hps]
                  · intro a ha b2 hb2 hcon
                    obtain ⟨hu, hps⟩ := hcon
                    have hbf : b2.uri = f := (hil1 b2 hb2).1
                    rcases hkey a ha with hsf | hvis
                    · rw [hsf, hbf] at hu
                      exact hf hu.symm
                    · have hnb := (hil1 b2 hb2).2.2
                      apply hnb
                      have hau : a.uri = f := hu.trans hbf
                      rw [← hps, ← hau]
                      exact hvis
                · refine List.Pairwise.imp_of_mem ?_ hip2
                  intro a b2 _ha _hb2 hne hcon
                  obtain ⟨_hu, hps⟩ := hcon
                  apply hne
                  rw [hps]
                · intro a ha b2 hb2 hcon
                  obtain ⟨hu, hps⟩ := hcon
                  have hb2f : b2.uri = f := (hil2 b2 hb2).1
                  have hb2v := (hil2 b2 hb2).2.2
                  rcases List.mem_append.mp ha with haa | har1
                  · rcases hkey a haa with hsf | hvis
                    · rw [hsf, hb2f] at hu
                      exact hf hu.symm
                    · apply hb2v
                      have hau : a.uri = f := hu.trans hb2f
                      have hvis2 : dedupKey f a.rangeStart ∈ vis := by
                        rw [← hau]
                        exact hvis
                      rw [← hps]
                      exact him1 _ hvis2
                  · have ha1 := hil1 a har1
                    apply hb2v
                    rw [← hps]
                    exact ha1.2.1
              · intro l hl
                rcases List.mem_append.mp hl with hl12 | hlr2
                · rcases List.mem_append.mp hl12 with hla | hlr1
                  · rcases hkey l hla with hsf | hvis
                    · exact Or.inl hsf
                    · exact Or.inr (him2 _ (him1 _ hvis))
                  · have h1 := hil1 l hlr1
                    right
                    rw [h1.1]
                    exact him2 _ h1.2.1
                · have h2 := hil2 l hlr2
                  right
                  rw [h2.1]
                  exact h2.2.1
            · rw [if_neg hh]; exact ih _ _ _ _ hpw hkey

/-- C4: the list returned by `findStoreVariableReferences` never contains
two `Location`s with the same file path and the same start position: the
definition spans lie at strictly increasing offsets of the store file (each
at a word character, so their line/character positions differ), and every
per-file occurrence — import-clause or `this.`-access — is pushed through
the shared `visited` set keyed by `uri:line:character`, so an import
occurrence coinciding with an access occurrence is returned only once. -/
theorem findStoreVariableReferences_dedup (env : Env) (st : TrackerState)
    (storeFilePath storeName : String) (budget : Option Nat)
    (hident : isIdentChars storeName.toList = true) :
    List.Pairwise (fun a b => ¬(a.uri = b.uri ∧ a.rangeStart = b.rangeStart))
      (findStoreVariableReferences env st storeFilePath storeName budget).1 := by
  unfold findStoreVariableReferences
  dsimp only
  obtain ⟨hpw, huri⟩ :=
    findStoreDefinitions_locs env st storeFilePath storeName hident
  exact refsLoop_pairwise env storeFilePath storeName env.workspaceFiles
    _ [] _ budget hpw (fun l hl => Or.inl (huri l hl))

theorem findStoreVariableReferences_dedup_witness :
    List.Pairwise (fun a b => ¬(a.uri = b.uri ∧ a.rangeStart = b.rangeStart))
      (findStoreVariableReferences envC2 initState "/s/c.store.ts" "count"
        none).1 :=
  findStoreVariableReferences_dedup envC2 initState "/s/c.store.ts" "count"
    none (by decide)

end AddStore
